import Mathlib

/-!
Verification development for the MDS OpenFileTable (`src/mds/OpenFileTable.cc`).

The C++ class state and its operations are shallowly embedded:
* `std::map` containers become association lists (`List (κ × α)`) whose key
  sets are kept duplicate-free by the operations that build them;
* asynchronous completions become explicit state-transition functions;
* `assert(...)` calls and unbounded recursion are modelled by returning
  `Option`: `none` means an assertion failed or the fuel ran out, `some st'`
  is normal completion with post-state `st'`;
* the `CInode`/`CDentry` world (inode cache) is a read-only environment
  `Cache` giving each inode its primary parent link and its d_type;
* machine integers (`inodeno_t`, `uint64_t`, sizes) are `Nat` (all values
  involved stay far below 2^64; where hex key encoding matters we carry the
  `< 2^64` bound explicitly); `mds_rank_t` is `Int` with `MDS_RANK_NONE = -1`.
-/

namespace OFT

/-! ### Generic association-list maps (model of `std::map`) -/

/-- Lookup of a key in an association list (first match). -/
def lookupKV {κ α : Type} [DecidableEq κ] : List (κ × α) → κ → Option α
  | [], _ => none
  | e :: t, k => if e.1 = k then some e.2 else lookupKV t k

/-- Remove the first entry with the given key (model of `map.erase(it)`). -/
def eraseKV {κ α : Type} [DecidableEq κ] : κ → List (κ × α) → List (κ × α)
  | _, [] => []
  | k, e :: t => if e.1 = k then t else e :: eraseKV k t

/-- Apply a function to the value stored at a key (model of in-place mutation
through an iterator). -/
def mapKV {κ α : Type} [DecidableEq κ] (k : κ) (f : α → α) (m : List (κ × α)) :
    List (κ × α) :=
  m.map (fun e => if e.1 = k then (e.1, f e.2) else e)

/-- `map.emplace(k, v)`: insert only when the key is absent. -/
def emplaceKV {κ α : Type} [DecidableEq κ] (k : κ) (v : α) (m : List (κ × α)) :
    List (κ × α) :=
  if (lookupKV m k).isSome then m else (k, v) :: m

/-- The list of keys of an association list. -/
def keysOf {κ α : Type} (m : List (κ × α)) : List κ := m.map Prod.fst

/-! ### Data model: `Anchor` -/

/-- `MDS_RANK_NONE`. -/
def MDS_RANK_NONE : Int := -1

/-- `DT_DIR` from `<dirent.h>` (value used by `CInode::d_type()`). -/
def DT_DIR : Nat := 4

/-- `DT_REG` (any non-directory type works the same in this model). -/
def DT_REG : Nat := 8

/-- The `OpenFileTable::Anchor` record (declared in `OpenFileTable.h`; its
fields are all read and written by `OpenFileTable.cc`): inode number, parent
directory inode (`0` = none), entry name in the parent, file-type tag,
reference count, and authority hint (populated only during prefetch). -/
structure Anchor where
  ino : Nat
  dirino : Nat
  d_name : String
  d_type : Nat
  nref : Nat
  auth : Int
  deriving Repr, DecidableEq

/-- The persisted image of an anchor.  Per the spec (§6) the serialized value
holds `ino`, `dirino`, `d_name`, `d_type`; `nref` and `auth` are not
persisted.  A bufferlist value is modelled as this record. -/
structure PAnchor where
  ino : Nat
  dirino : Nat
  d_name : String
  d_type : Nat
  deriving Repr, DecidableEq

/-- `encode(anchor, bl)`: the persisted bytes of an anchor. -/
def encodeAnchor (a : Anchor) : PAnchor :=
  ⟨a.ino, a.dirino, a.d_name, a.d_type⟩

/-- Modelled byte length of the encoded anchor value (`bl.length()`): fixed
field overhead plus the name.  The exact constants only influence where the
commit batching flushes, which no property here depends on. -/
def encLen (a : Anchor) : Nat := 21 + a.d_name.length

/-- Modelled from the spec: `Anchor::operator==` lives in `OpenFileTable.h`
(not under `src/`); per the spec's commit diff step ("byte-equal anchor"),
two anchors compare equal when their persisted images coincide. -/
def anchorSame (a b : Anchor) : Bool := encodeAnchor a == encodeAnchor b

/-- `decode(anchor, p)` on a default-constructed anchor: the persisted fields
are filled in, `nref` keeps its default `0`; the loader then overwrites
`auth` with `MDS_RANK_NONE` explicitly. -/
def decodeAnchor (p : PAnchor) : Anchor :=
  ⟨p.ino, p.dirino, p.d_name, p.d_type, 0, MDS_RANK_NONE⟩

/-- `DIRTY_NEW` flag bit of a dirty item. -/
def DIRTY_NEW : Nat := 1

/-- Prefetch states (from the `enum` in `OpenFileTable.h`, whose values are
pinned by `assert(!prefetch_state)` treating `IDLE` as zero). -/
def IDLE : Nat := 0
def DIR_INODES : Nat := 1
def FILE_INODES : Nat := 2
def DONE : Nat := 3

/-! ### The OpenFileTable state -/

/-- The mutable state of one `OpenFileTable`, mirroring the class fields that
`OpenFileTable.cc` reads and writes.  `tracked` models the per-inode
`CInode::STATE_TRACKEDBYOFT` flags (which live on the inodes but are mutated
only by this class); waiter lists are modelled by their length. -/
structure OftState where
  anchor_map : List (Nat × Anchor)
  dirty_items : List (Nat × Nat)
  tracked : List Nat
  committed_log_seq : Nat
  committing_log_seq : Nat
  num_pending_commit : Nat
  loaded_anchor_map : List (Nat × Anchor)
  load_done : Bool
  clear_on_commit : Bool
  waiting_for_load : Nat
  prefetch_state : Nat
  num_opening_inodes : Nat
  waiting_for_prefetch : Nat
  deriving Repr, DecidableEq

/-- A freshly constructed OpenFileTable. -/
def initState : OftState :=
  { anchor_map := [], dirty_items := [], tracked := [],
    committed_log_seq := 0, committing_log_seq := 0, num_pending_commit := 0,
    loaded_anchor_map := [], load_done := false, clear_on_commit := false,
    waiting_for_load := 0, prefetch_state := IDLE, num_opening_inodes := 0,
    waiting_for_prefetch := 0 }

/-! ### The inode cache environment

`get_ref`/`put_ref` read `in->get_parent_dn()`, the parent dentry's directory
inode, `in->d_type()` and `in->is_dir()`.  These are modelled by a read-only
environment.  The `depth`/`wf` fields express that primary parent links form
a finite forest (never a cycle, never parent inode `0`): this is what makes
the do/while climb of the C++ terminate. -/
structure Cache where
  parent : Nat → Option (Nat × String)
  d_type : Nat → Nat
  depth : Nat → Nat
  wf : ∀ i p nm, parent i = some (p, nm) → p ≠ 0 ∧ depth p < depth i

/-- `CInode::is_dir()`. -/
def Cache.isDir (c : Cache) (i : Nat) : Bool := c.d_type i == DT_DIR

/-! ### Ref engine (`get_ref` / `put_ref` and the four lifecycle hooks) -/

/-- `OpenFileTable::get_ref`: climb from `in` towards the root; bump the
refcount of the first pre-existing anchor, creating fresh `nref = 1` anchors
(marked `DIRTY_NEW`) below it.  The first argument after the cache is fuel
bounding the climb; the asserts of the source are the `none` cases. -/
def get_ref (c : Cache) : Nat → Nat → OftState → Option OftState
  | 0, _, _ => none
  | fuel + 1, i, st =>
    match lookupKV st.anchor_map i with
    | some a =>
      -- assert(in->state_test(STATE_TRACKEDBYOFT)); assert(p->second.nref > 0)
      if i ∈ st.tracked ∧ 0 < a.nref then
        some { st with anchor_map := mapKV i (fun a => { a with nref := a.nref + 1 }) st.anchor_map }
      else none
    | none =>
      let pin := c.parent i
      let anc : Anchor :=
        { ino := i,
          dirino := match pin with | some (p, _) => p | none => 0,
          d_name := match pin with | some (_, nm) => nm | none => "",
          d_type := c.d_type i, nref := 1, auth := MDS_RANK_NONE }
      let st' : OftState :=
        { st with anchor_map := (i, anc) :: st.anchor_map,
                  tracked := i :: st.tracked,
                  dirty_items := emplaceKV i DIRTY_NEW st.dirty_items }
      match pin with
      | none => some st'
      | some (p, _) => get_ref c fuel p st'

/-- The dirty-set update of `put_ref`: `emplace(ino, 0)`, and if the entry
already existed with `DIRTY_NEW`, erase it instead (creation and deletion
cancel). -/
def putDirty (i : Nat) (d : List (Nat × Nat)) : List (Nat × Nat) :=
  match lookupKV d i with
  | none => (i, 0) :: d
  | some f => if f.land DIRTY_NEW ≠ 0 then eraseKV i d else d

/-- `OpenFileTable::put_ref`: drop one reference from `in`, erasing the
anchor and climbing when the count reaches zero. -/
def put_ref (c : Cache) : Nat → Nat → OftState → Option OftState
  | 0, _, _ => none
  | fuel + 1, i, st =>
    -- assert(in->state_test(STATE_TRACKEDBYOFT))
    if i ∈ st.tracked then
      match lookupKV st.anchor_map i with
      | none => none   -- assert(p != anchor_map.end())
      | some a =>
        if a.nref = 0 then none   -- assert(p->second.nref > 0)
        else if 1 < a.nref then
          some { st with anchor_map := mapKV i (fun a => { a with nref := a.nref - 1 }) st.anchor_map }
        else
          let pin := c.parent i
          let ok : Bool :=
            match pin with
            | some (p, nm) => a.dirino == p && a.d_name == nm
            | none => a.dirino == 0 && a.d_name == ""
          if ok then
            let st' : OftState :=
              { st with anchor_map := eraseKV i st.anchor_map,
                        tracked := st.tracked.erase i,
                        dirty_items := putDirty i st.dirty_items }
            match pin with
            | none => some st'
            | some (p, _) => put_ref c fuel p st'
          else none
    else none

/-- `OpenFileTable::add_inode`. -/
def add_inode (c : Cache) (fuel i : Nat) (st : OftState) : Option OftState :=
  if ¬ c.isDir i then
    match lookupKV st.anchor_map i with
    | some _ => none   -- assert(p == anchor_map.end())
    | none => get_ref c fuel i st
  else get_ref c fuel i st

/-- `OpenFileTable::remove_inode`. -/
def remove_inode (c : Cache) (fuel i : Nat) (st : OftState) : Option OftState :=
  if ¬ c.isDir i then
    match lookupKV st.anchor_map i with
    | some a => if a.nref = 1 then put_ref c fuel i st else none
    | none => none   -- assert(p != anchor_map.end())
  else put_ref c fuel i st

/-- `OpenFileTable::notify_link`: the anchor must currently be parentless;
record the new parent link and acquire a reference on the parent. -/
def notify_link (c : Cache) (fuel i : Nat) (st : OftState) : Option OftState :=
  match lookupKV st.anchor_map i with
  | none => none
  | some a =>
    if 0 < a.nref ∧ a.dirino = 0 ∧ a.d_name = "" then
      match c.parent i with
      | none => none   -- in->get_parent_dn() must exist
      | some (p, nm) =>
        let st' : OftState :=
          { st with
              anchor_map := mapKV i (fun a => { a with dirino := p, d_name := nm }) st.anchor_map,
              dirty_items := emplaceKV i 0 st.dirty_items }
        get_ref c fuel p st'
    else none

/-- `OpenFileTable::notify_unlink`: the anchor must match the current parent
link; clear it and release the reference on the parent. -/
def notify_unlink (c : Cache) (fuel i : Nat) (st : OftState) : Option OftState :=
  match lookupKV st.anchor_map i with
  | none => none
  | some a =>
    if 0 < a.nref then
      match c.parent i with
      | none => none   -- in->get_parent_dn() must exist
      | some (p, nm) =>
        if a.dirino = p ∧ a.d_name = nm then
          let st' : OftState :=
            { st with
                anchor_map := mapKV i (fun a => { a with dirino := 0, d_name := "" }) st.anchor_map,
                dirty_items := emplaceKV i 0 st.dirty_items }
          put_ref c fuel p st'
        else none
    else none

/-! ### Reachable states and the refcount invariant (spec §8)

`directlyTracked` is ghost state: the set of inodes currently added through
`add_inode` and not yet removed through `remove_inode`.  The MDS calls these
hooks when an inode starts/stops being tracked, so an inode is added only
when it is not currently directly tracked and removed only when it is: those
are the implicit preconditions the steps respect, next to the source's own
asserts (modelled inside the operations). -/

/-- Number of anchors in the map whose `dirino` is `x`. -/
def childCount (m : List (Nat × Anchor)) (x : Nat) : Nat :=
  m.countP (fun e => e.2.dirino == x)

/-- The pin sources of inode `x`: one if directly tracked, plus one per
anchored child. -/
def pins (d : List Nat) (m : List (Nat × Anchor)) (x : Nat) : Nat :=
  (if x ∈ d then 1 else 0) + childCount m x

/-- States reachable from the empty table by the four lifecycle hooks,
respecting their preconditions.  Each step carries the cache (directory
topology) it runs against — link/unlink steps see the topology after the
corresponding dentry change — and the fuel with which the climb completed. -/
inductive Reach : OftState → List Nat → Prop where
  | empty : Reach initState []
  | add (c : Cache) (fuel i : Nat) {st st' : OftState} {d : List Nat} :
      Reach st d → i ≠ 0 → i ∉ d →
      add_inode c fuel i st = some st' → Reach st' (i :: d)
  | remove (c : Cache) (fuel i : Nat) {st st' : OftState} {d : List Nat} :
      Reach st d → i ∈ d →
      remove_inode c fuel i st = some st' → Reach st' (d.erase i)
  | link (c : Cache) (fuel i : Nat) {st st' : OftState} {d : List Nat} :
      Reach st d → notify_link c fuel i st = some st' → Reach st' d
  | unlink (c : Cache) (fuel i : Nat) {st st' : OftState} {d : List Nat} :
      Reach st d → notify_unlink c fuel i st = some st' → Reach st' d

/-- The well-formedness bundle carried through the reachability induction:
duplicate-free keys and ghost set, anchors keyed by their own inode number
and never by `0`, parent-closure (spec §3 invariant 2), the ghost direct set
anchored, and the refcount equation (spec §3 invariant / §8). -/
def WfSt (st : OftState) (d : List Nat) : Prop :=
  (keysOf st.anchor_map).Nodup ∧
  d.Nodup ∧
  (∀ e ∈ st.anchor_map, e.2.ino = e.1 ∧ e.1 ≠ 0) ∧
  (∀ e ∈ st.anchor_map, e.2.dirino ≠ 0 → e.2.dirino ∈ keysOf st.anchor_map) ∧
  (∀ x ∈ d, x ∈ keysOf st.anchor_map) ∧
  (∀ e ∈ st.anchor_map, e.2.nref = pins d st.anchor_map e.1)

/-- The ancestor chain of an inode in the cache (the inodes a fresh
`get_ref` climb visits), fuel-bounded. -/
def chainK (c : Cache) : Nat → Nat → List Nat
  | 0, _ => []
  | fuel + 1, i =>
    i :: match c.parent i with
         | none => []
         | some (p, _) => chainK c fuel p

/-- The three-field state change performed by the erase branch of
`put_ref` at inode `j` (used to relate a release climb to the acquire climb
it undoes). -/
def eraseFromState (j : Nat) (st : OftState) : OftState :=
  { st with anchor_map := eraseKV j st.anchor_map,
            tracked := st.tracked.erase j,
            dirty_items := putDirty j st.dirty_items }

/-! ### Hexadecimal omap keys

`commit` builds each key with `snprintf(key, sizeof(key), "%llx", ino)` and
`_load_finish` reads it back with `sscanf(key, "%llx", &ino)`: lowercase hex,
no leading zeros (`0` itself prints as "0"). -/

def hexDigitChar (d : Nat) : Char := "0123456789abcdef".toList.getD d '0'

def hexCharVal (c : Char) : Nat :=
  if c = '0' then 0 else if c = '1' then 1 else if c = '2' then 2
  else if c = '3' then 3 else if c = '4' then 4 else if c = '5' then 5
  else if c = '6' then 6 else if c = '7' then 7 else if c = '8' then 8
  else if c = '9' then 9 else if c = 'a' then 10 else if c = 'b' then 11
  else if c = 'c' then 12 else if c = 'd' then 13 else if c = 'e' then 14
  else if c = 'f' then 15 else 0

/-- Hex digits of `n`, least significant first, with fuel (16 suffices for
any `uint64_t`). -/
def hexRev : Nat → Nat → List Nat
  | 0, _ => []
  | fuel + 1, n => if n = 0 then [] else n % 16 :: hexRev fuel (n / 16)

/-- The `%llx` rendering of an inode number. -/
def hexKey (n : Nat) : String :=
  if n = 0 then "0" else String.mk (((hexRev 64 n).map hexDigitChar).reverse)

/-- The `sscanf("%llx")` parse of a key (our keys are all hex digits). -/
def parseHex (s : String) : Nat :=
  s.toList.foldl (fun acc c => acc * 16 + hexCharVal c) 0

/-! ### Commit (`OpenFileTable::commit` and its `commit_func` lambda)

Each flushed `ObjectOperation` becomes a `SubOp` recording exactly the omap
mutations the source puts into it: an optional fail-ok `omap_clear`, an
optional `omap_set_header`, the `omap_set` map and the `omap_rm_keys` set. -/

structure SubOp where
  clear : Bool
  header : Option Nat
  updates : List (String × PAnchor)
  removes : List String
  deriving Repr, DecidableEq

/-- The loop-local variables of `commit` (`first`, `write_size`, `to_update`,
`to_remove`), the sub-operations flushed so far, and the two pieces of object
state the loops mutate (`clear_on_commit`, `loaded_anchor_map`). -/
structure CommitAcc where
  first : Bool
  write_size : Nat
  to_update : List (String × PAnchor)
  to_remove : List String
  ops : List SubOp
  clear_on_commit : Bool
  loaded : List (Nat × Anchor)
  deriving Repr, DecidableEq

/-- The `commit_func` lambda: build one `ObjectOperation` out of the pending
updates/removals, setting the header to `log_seq` in the last sub-op and to
`0` in a first, non-last sub-op. -/
def commitFlush (log_seq : Nat) (last : Bool) (a : CommitAcc) : CommitAcc :=
  let op : SubOp :=
    { clear := a.clear_on_commit,
      header := if last then some log_seq else if a.first then some 0 else none,
      updates := a.to_update, removes := a.to_remove }
  { first := false, write_size := 0, to_update := [], to_remove := [],
    ops := a.ops ++ [op], clear_on_commit := false, loaded := a.loaded }

/-- One iteration of the dirty-items loop past the first-commit diff: encode
the key, record an update or a removal, and flush when `write_size` reaches
the cap. -/
def commitAddItem (anchor_map : List (Nat × Anchor)) (maxw log_seq ino : Nat)
    (a : CommitAcc) : CommitAcc :=
  let key := hexKey ino
  let a :=
    match lookupKV anchor_map ino with
    | some pa =>
      { a with to_update := a.to_update ++ [(key, encodeAnchor pa)],
               write_size := a.write_size + key.length + 4 + encLen pa + 4 }
    | none =>
      { a with to_remove := a.to_remove ++ [key],
               write_size := a.write_size + key.length + 4 }
  if maxw ≤ a.write_size then commitFlush log_seq false a else a

/-- The `for (auto& it : dirty_items)` loop, including the first-commit diff
against the loaded snapshot. -/
def commitDirtyLoop (anchor_map : List (Nat × Anchor)) (first_commit : Bool)
    (maxw log_seq : Nat) : List (Nat × Nat) → CommitAcc → CommitAcc
  | [], a => a
  | (ino, _) :: rest, a =>
    match (if first_commit then lookupKV a.loaded ino else none) with
    | some qa =>
      let same :=
        match lookupKV anchor_map ino with
        | some pa => anchorSame pa qa
        | none => false
      let a := { a with loaded := eraseKV ino a.loaded }
      if same then commitDirtyLoop anchor_map first_commit maxw log_seq rest a
      else commitDirtyLoop anchor_map first_commit maxw log_seq rest
        (commitAddItem anchor_map maxw log_seq ino a)
    | none =>
      commitDirtyLoop anchor_map first_commit maxw log_seq rest
        (commitAddItem anchor_map maxw log_seq ino a)

/-- The first-commit leftover loop: every key still in the loaded map is
absent from live state and is scheduled for removal. -/
def commitRemoveLoop (maxw log_seq : Nat) : List (Nat × Anchor) → CommitAcc → CommitAcc
  | [], a => a
  | (ino, _) :: rest, a =>
    let key := hexKey ino
    let a := { a with to_remove := a.to_remove ++ [key],
                      write_size := a.write_size + key.length + 4 }
    let a := if maxw ≤ a.write_size then commitFlush log_seq false a else a
    commitRemoveLoop maxw log_seq rest a

/-- The initial accumulator of `commit`: nothing flushed yet, object-state
pieces (`clear_on_commit`, `loaded_anchor_map`) read from the table. -/
def commitAcc0 (st : OftState) : CommitAcc :=
  { first := true, write_size := 0, to_update := [], to_remove := [],
    ops := [], clear_on_commit := st.clear_on_commit,
    loaded := st.loaded_anchor_map }

/-- The accumulator after both commit loops (dirty items, then first-commit
leftovers), right before the final flush. -/
def commitAcc (maxw log_seq : Nat) (st : OftState) : CommitAcc :=
  let first_commit := ¬ st.loaded_anchor_map.isEmpty
  let a1 := commitDirtyLoop st.anchor_map first_commit maxw log_seq
    st.dirty_items (commitAcc0 st)
  if first_commit then commitRemoveLoop maxw log_seq a1.loaded a1 else a1

/-- `OpenFileTable::commit`: `none` models the failed
`assert(log_seq >= committing_log_seq)`; otherwise the post-state plus the
list of sub-operations submitted through the gather, in submission order. -/
def commit (maxw log_seq : Nat) (st : OftState) : Option (OftState × List SubOp) :=
  if st.committing_log_seq ≤ log_seq then
    let a3 := commitFlush log_seq true (commitAcc maxw log_seq st)
    some ({ st with committing_log_seq := log_seq,
                    dirty_items := [],
                    loaded_anchor_map := [],
                    clear_on_commit := a3.clear_on_commit,
                    num_pending_commit := st.num_pending_commit + 1 },
          a3.ops)
  else none

/-! ### The backing object and omap operations -/

/-- The per-rank backing object: a header bytes field and the omap.  `none`
for the header models an empty/never-written bufferlist (whose decode throws
`buffer::error`). -/
structure Omap where
  header : Option Nat
  entries : List (String × PAnchor)
  deriving Repr, DecidableEq

def emptyOmap : Omap := { header := none, entries := [] }

/-- `omap_set` of a single pair: upsert. -/
def omapSet (k : String) (v : PAnchor) (m : List (String × PAnchor)) :
    List (String × PAnchor) :=
  if (lookupKV m k).isSome then mapKV k (fun _ => v) m else m ++ [(k, v)]

/-- Apply one sub-operation to the object, in the order the source adds the
ops: `omap_clear`, `omap_set_header`, `omap_set`, `omap_rm_keys`. -/
def applyOp (o : Omap) (op : SubOp) : Omap :=
  let o := if op.clear then { o with entries := [] } else o
  let o := match op.header with | some h => { o with header := some h } | none => o
  let o := { o with entries := op.updates.foldl (fun es (kv : String × PAnchor) => omapSet kv.1 kv.2 es) o.entries }
  { o with entries := op.removes.foldl (fun es k => eraseKV k es) o.entries }

/-- Apply the sub-operations of a commit.  RADOS applies operations on one
object from one client in submission order. -/
def applyOps (o : Omap) (ops : List SubOp) : Omap := ops.foldl applyOp o

/-! ### Load (`OpenFileTable::load` / `_load_finish`) -/

/-- Outcome of the value-decoding loop of `_load_finish`. -/
inductive LoadVals where
  | ok (m : List (Nat × Anchor))
  | decodeErr           -- buffer::error caught by the surrounding try
  | assertFail          -- assert(ino == anchor.ino) fired
  deriving Repr, DecidableEq

/-- The `for (auto& it : values)` loop: parse the hex key, decode the anchor
into a default-constructed entry emplaced at the end (overwriting on a
duplicate key, as `emplace_hint` + in-place decode does), check the key
matches, reset `auth`. -/
def loadValues : List (String × Option PAnchor) → List (Nat × Anchor) → LoadVals
  | [], m => .ok m
  | (k, v) :: rest, m =>
    match v with
    | none => .decodeErr
    | some pa =>
      let ino := parseHex k
      let anc := decodeAnchor pa
      let m' := if (lookupKV m ino).isSome then mapKV ino (fun _ => anc) m
                else m ++ [(ino, anc)]
      if ino = pa.ino then loadValues rest m' else .assertFail

/-- Mark load done and fire the waiters (the `out:` label).  Returns the
post-state, the number of waiters fired, and `false` for "no further read
was issued". -/
def finishLoad (st : OftState) : OftState × Nat × Bool :=
  ({ st with load_done := true, waiting_for_load := 0 }, st.waiting_for_load, false)

/-- `OpenFileTable::_load_finish` for one completed read.  The unused
`header_r`/`values_r` of the source carry per-op return codes that the body
never consults; they are omitted.  Result `none` models the fatal
`assert(ino == anchor.ino)`; otherwise the post-state, the number of load
waiters fired, and whether another page read was dispatched instead of
finishing. -/
def loadFinish (op_r : Int) (first more : Bool) (header_bl : Option Nat)
    (values : List (String × Option PAnchor)) (st : OftState) :
    Option (OftState × Nat × Bool) :=
  if op_r < 0 then
    some (finishLoad
      { st with clear_on_commit := true,
                loaded_anchor_map := if first then st.loaded_anchor_map else [] })
  else
    let afterHeader : Option (OftState × Bool) :=
      if first then
        match header_bl with
        | none => none   -- decode throws buffer::error
        | some log_seq =>
          some ({ st with committed_log_seq := log_seq,
                          committing_log_seq := log_seq }, log_seq = 0)
      else some (st, false)
    match afterHeader with
    | none =>
      -- catch (buffer::error&): corrupted header/values
      some (finishLoad { st with clear_on_commit := true, loaded_anchor_map := [] })
    | some (st, abandon) =>
      if abandon then some (finishLoad st)   -- incomplete values: goto out
      else
        match loadValues values st.loaded_anchor_map with
        | .assertFail => none
        | .decodeErr =>
          some (finishLoad { st with clear_on_commit := true, loaded_anchor_map := [] })
        | .ok m =>
          let st := { st with loaded_anchor_map := m }
          if more then some (st, 0, true) else some (finishLoad st)

/-- `load()` followed by the completion of its (single-page) read of the
whole object: the first read fetches the header and all values with
`max = uint64(-1)`. -/
def loadObject (o : Omap) (st : OftState) : Option (OftState × Nat × Bool) :=
  if st.load_done then none   -- assert(!load_done)
  else loadFinish 0 true false o.header (o.entries.map (fun e => (e.1, some e.2))) st

/-! ### Prefetch (`prefetch_inodes` / `_prefetch_inodes` / `_open_ino_finish`) -/

/-- The collaborators `_prefetch_inodes` consults: which inodes the MDCache
already has, this rank, and the reserved-range tests/owners
(`MDS_INO_IS_MDSDIR` etc., defined outside this file's source). -/
structure PrefetchEnv where
  cacheHas : Nat → Bool
  whoami : Int
  isMdsdir : Nat → Bool
  mdsdirOwner : Nat → Int
  isStray : Nat → Bool
  strayOwner : Nat → Int

/-- The enumeration inside `_prefetch_inodes`: walk the loaded map, skip
entries of the other phase, resolve reserved-range authorities in place,
skip cached inodes, and collect the `open_ino` requests issued.  Returns the
(possibly auth-updated) loaded map, the number of opens issued, and their
inodes. -/
def prefetchEnum (env : PrefetchEnv) (pstate : Nat) :
    List (Nat × Anchor) → List (Nat × Anchor) × Nat × List Nat
  | [] => ([], 0, [])
  | (ino, anc) :: rest =>
    let skip (a : Anchor) :=
      let (m, n, os) := prefetchEnum env pstate rest
      ((ino, a) :: m, n, os)
    if anc.d_type = DT_DIR then
      if pstate ≠ DIR_INODES then skip anc
      else if env.isMdsdir ino then skip { anc with auth := env.mdsdirOwner ino }
      else if env.isStray ino then skip { anc with auth := env.strayOwner ino }
      else if env.cacheHas ino then skip anc
      else
        let (m, n, os) := prefetchEnum env pstate rest
        ((ino, anc) :: m, n + 1, os ++ [ino])
    else
      if pstate ≠ FILE_INODES then skip anc
      else if env.cacheHas ino then skip anc
      else
        let (m, n, os) := prefetchEnum env pstate rest
        ((ino, anc) :: m, n + 1, os ++ [ino])

/-- The mutually recursive pair `_prefetch_inodes` / `_open_ino_finish`,
merged into one fueled step function (the recursion depth is bounded by the
phase advancing).  `.inner` is a call of `_prefetch_inodes`; `.finish ino r`
is a call of `_open_ino_finish`.  Returns the post-state and the `open_ino`
requests issued; `none` models a failed assert (or fuel exhaustion). -/
inductive PrefCall where
  | inner
  | finish (ino : Nat) (r : Int)

def prefStep (env : PrefetchEnv) : Nat → PrefCall → OftState → Option (OftState × List Nat)
  | 0, _, _ => none
  | fuel + 1, .inner, st =>
    if st.num_opening_inodes ≠ 0 then none   -- assert(!num_opening_inodes)
    else if st.prefetch_state ≠ DIR_INODES ∧ st.prefetch_state ≠ FILE_INODES then
      none   -- pool selection: assert(0) on any other state
    else
      let (loaded', cnt, opens) := prefetchEnum env st.prefetch_state st.loaded_anchor_map
      let st := { st with loaded_anchor_map := loaded',
                          num_opening_inodes := 1 + cnt }
      match prefStep env fuel (.finish 0 0) st with
      | none => none
      | some (st', os) => some (st', opens ++ os)
  | fuel + 1, .finish ino r, st =>
    let auth : Option OftState :=
      if st.prefetch_state = DIR_INODES ∧ 0 ≤ r ∧ ino ≠ 0 then
        match lookupKV st.loaded_anchor_map ino with
        | none => none   -- assert(p != loaded_anchor_map.end())
        | some _ =>
          let m := mapKV ino (fun a => { a with auth := r }) st.loaded_anchor_map
          some { st with loaded_anchor_map := m }
      else some st
    match auth with
    | none => none
    | some st =>
      -- (r != whoami): rejoin_prefetch_ino_finish — external side effect
      if st.num_opening_inodes = 0 then none   -- counter cannot underflow
      else
        let st := { st with num_opening_inodes := st.num_opening_inodes - 1 }
        if st.num_opening_inodes = 0 then
          if st.prefetch_state = DIR_INODES then
            prefStep env fuel .inner { st with prefetch_state := FILE_INODES }
          else if st.prefetch_state = FILE_INODES then
            some ({ st with prefetch_state := DONE, waiting_for_prefetch := 0 }, [])
          else none   -- assert(0)
        else some (st, [])

/-- Modelled from the spec: `is_prefetched()` is declared in
`OpenFileTable.h` (not under `src/`); per the spec's queries it reports
whether the prefetch state machine has reached `DONE`. -/
def is_prefetched (st : OftState) : Bool := st.prefetch_state == DONE

/-- `OpenFileTable::prefetch_inodes`: start the two-phase prefetch.  If load
is not done yet, register as a load waiter and return `true`; otherwise run
`_prefetch_inodes` and return `!is_prefetched()`. -/
def prefetch_inodes (env : PrefetchEnv) (fuel : Nat) (st : OftState) :
    Option (OftState × Bool × List Nat) :=
  if st.prefetch_state ≠ IDLE then none   -- assert(!prefetch_state)
  else
    let st := { st with prefetch_state := DIR_INODES }
    if ¬ st.load_done then
      some ({ st with waiting_for_load := st.waiting_for_load + 1 }, true, [])
    else
      match prefStep env fuel .inner st with
      | none => none
      | some (st', opens) => some (st', !is_prefetched st', opens)

/-! ### `get_ancestors` -/

/-- The `while (true)` walk of `get_ancestors`, with fuel: push the
backpointer of the current anchor, look its parent up, record the first-hop
parent's `auth` into the hint, and continue while the parent is present with
a non-null `dirino`. -/
def ancLoop (loaded : List (Nat × Anchor)) :
    Nat → Anchor → Nat → Bool → List (Nat × String × Nat) → Int →
    Option (List (Nat × String × Nat) × Int)
  | 0, _, _, _, _, _ => none
  | fuel + 1, p, dirino, first, anc, hint =>
    let anc := anc ++ [(dirino, p.d_name, 0)]
    match lookupKV loaded dirino with
    | none => some (anc, hint)
    | some q =>
      let hint := if first then q.auth else hint
      if q.dirino = 0 then some (anc, hint)
      else ancLoop loaded fuel q q.dirino false anc hint

/-- `OpenFileTable::get_ancestors`: on success returns the boolean result,
the (cleared-and-refilled) ancestors vector and the auth hint; the vector
and hint keep their input values when the result is `false`. -/
def get_ancestors (loaded : List (Nat × Anchor)) (fuel ino : Nat)
    (anc0 : List (Nat × String × Nat)) (hint0 : Int) :
    Option (Bool × List (Nat × String × Nat) × Int) :=
  match lookupKV loaded ino with
  | none => some (false, anc0, hint0)
  | some p =>
    if p.dirino = 0 then some (false, anc0, hint0)
    else
      match ancLoop loaded fuel p p.dirino true [] hint0 with
      | none => none
      | some (anc, hint) => some (true, anc, hint)

/-- Modelled from the spec's words, for comparison with `get_ancestors`:
"append `(dirino, d_name, 0)` tuples walking upward while parents are
present in the loaded map; stop when a parent is not in the loaded map or
has null `dirino`". -/
def specAncestorChain (loaded : List (Nat × Anchor)) :
    Nat → Anchor → List (Nat × String × Nat)
  | 0, _ => []
  | fuel + 1, a =>
    (a.dirino, a.d_name, 0) ::
      match lookupKV loaded a.dirino with
      | none => []
      | some par => if par.dirino = 0 then [] else specAncestorChain loaded fuel par

/-! ### `should_log_open` -/

/-- `OpenFileTable::should_log_open`: whether an "open" journal event for the
inode is still needed.  `last_journaled` is the `CInode` field of the same
name; tracking is read from the modelled `STATE_TRACKEDBYOFT` flags. -/
def should_log_open (st : OftState) (ino last_journaled : Nat) : Bool :=
  if ino ∈ st.tracked then
    -- inode just journaled
    if st.committing_log_seq ≤ last_journaled then false
    -- item not dirty: it has already been saved
    else if (lookupKV st.dirty_items ino).isNone then false
    else true
  else true

/-! ### Concrete inputs used by witnesses and counterexamples -/

/-- A tiny directory topology: file `0x10` sits in directory `0x1` under the
name "a"; everything else is parentless. -/
def cacheW : Cache where
  parent := fun i => if i = 16 then some (1, "a") else none
  d_type := fun i => if i = 1 then DT_DIR else DT_REG
  depth := fun i => i
  wf := by
    intro i p nm h
    dsimp only at h
    split at h
    next hi => subst hi; cases h; exact ⟨by decide, by decide⟩
    next hi => simp at h

/-- A trivial prefetch environment: empty inode cache, no reserved ranges. -/
def envW : PrefetchEnv where
  cacheHas := fun _ => false
  whoami := 0
  isMdsdir := fun _ => false
  mdsdirOwner := fun _ => 0
  isStray := fun _ => false
  strayOwner := fun _ => 0

/-- A state with `committing_log_seq = 5` and a dirty, tracked inode `0x10`
whose `last_journaled` will be `7` (spec §8 scenario 6). -/
def stSlo : OftState :=
  { initState with committing_log_seq := 5, dirty_items := [(16, 0)], tracked := [16] }

/-- The same state with `committing_log_seq = 10`. -/
def stSlo10 : OftState := { stSlo with committing_log_seq := 10 }

/-- A loaded OFT right before prefetch. -/
def stPreW : OftState := { initState with load_done := true }

/-- A loaded snapshot: file `0x10` under directory `0x1` (whose prefetch
resolved `auth = 7`). -/
def loadedW : List (Nat × Anchor) :=
  [(16, ⟨16, 1, "a", DT_REG, 0, -1⟩), (1, ⟨1, 0, "", DT_DIR, 0, 7⟩)]

/-- A state carrying a stale, non-NEW dirty entry for `0x10` (as left behind
by `add_inode 0x10; commit; remove_inode 0x10`). -/
def stDirtyStale : OftState := { initState with dirty_items := [(16, 0)] }

/-- The state after `add_inode(0x10)` on the empty table under `cacheW`. -/
def stAdd16 : OftState :=
  { initState with
      anchor_map := [(1, ⟨1, 0, "", DT_DIR, 1, -1⟩), (16, ⟨16, 1, "a", DT_REG, 1, -1⟩)],
      dirty_items := [(1, DIRTY_NEW), (16, DIRTY_NEW)],
      tracked := [1, 16] }

/-- A first-boot state holding scenario 1 of the spec: anchors for `0x10`
and `0x1`, both dirty-new, ready to commit. -/
def stCommitW : OftState :=
  { stAdd16 with load_done := true }

/-- Invariant of the commit loops about headers: the sub-ops flushed so far
were all non-last, so the first one set the header to `0` and no later one
set it, and the `first` flag tracks whether anything was flushed yet. -/
def headerInv (a : CommitAcc) : Prop :=
  (a.first = true ↔ a.ops = []) ∧
  ∀ i op, a.ops[i]? = some op → op.header = if i = 0 then some 0 else none

/-- The live anchor at a key (total; every key we use carries an anchor). -/
def liveVal (A : List (Nat × Anchor)) (k : Nat) : Anchor :=
  (lookupKV A k).getD ⟨0, 0, "", 0, 0, 0⟩

/-- All omap key updates of a list of sub-operations, in submission order. -/
def opsUpdates (l : List SubOp) : List (String × PAnchor) :=
  (l.map SubOp.updates).flatten

/-- Erase a list of keys from an anchor map (the reconciliation performed by
the first-commit diff on the loaded snapshot). -/
def eraseKeys (ks : List Nat) (m : List (Nat × Anchor)) : List (Nat × Anchor) :=
  ks.foldl (fun m k => eraseKV k m) m

/-! ## Lemmas about the association-list operations -/

@[simp] theorem keysOf_nil {κ α : Type} : keysOf ([] : List (κ × α)) = [] := rfl

@[simp] theorem keysOf_cons {κ α : Type} (e : κ × α) (t : List (κ × α)) :
    keysOf (e :: t) = e.1 :: keysOf t := rfl

theorem keysOf_append {κ α : Type} (l₁ l₂ : List (κ × α)) :
    keysOf (l₁ ++ l₂) = keysOf l₁ ++ keysOf l₂ := List.map_append _ _ _

section MapLemmas

variable {κ α : Type} [DecidableEq κ]

@[simp] theorem lookupKV_nil (k : κ) : lookupKV ([] : List (κ × α)) k = none := rfl

theorem lookupKV_cons (e : κ × α) (t : List (κ × α)) (k : κ) :
    lookupKV (e :: t) k = if e.1 = k then some e.2 else lookupKV t k := rfl

theorem lookupKV_isSome_iff (m : List (κ × α)) (k : κ) :
    (lookupKV m k).isSome ↔ k ∈ keysOf m := by
  induction m with
  | nil => simp
  | cons e t ih =>
    rw [lookupKV_cons]
    by_cases h : e.1 = k
    · simp [h]
    · simp only [if_neg h, keysOf_cons, List.mem_cons, ih]
      constructor
      · exact Or.inr
      · rintro (rfl | hk)
        · exact absurd rfl h
        · exact hk

theorem lookupKV_eq_none_iff (m : List (κ × α)) (k : κ) :
    lookupKV m k = none ↔ k ∉ keysOf m := by
  rw [← lookupKV_isSome_iff, Option.isSome_iff_ne_none]
  tauto

theorem lookupKV_mem {m : List (κ × α)} {k : κ} {a : α}
    (h : lookupKV m k = some a) : (k, a) ∈ m := by
  induction m with
  | nil => simp at h
  | cons e t ih =>
    rw [lookupKV_cons] at h
    split at h
    · next he => cases h; rcases e with ⟨k', a'⟩; cases he; simp
    · exact List.mem_cons_of_mem _ (ih h)

theorem mem_keysOf_of_lookupKV {m : List (κ × α)} {k : κ} {a : α}
    (h : lookupKV m k = some a) : k ∈ keysOf m := by
  rw [← lookupKV_isSome_iff, h]; rfl

theorem lookupKV_eq_of_mem_nodup {m : List (κ × α)} {k : κ} {a : α}
    (hd : (keysOf m).Nodup) (h : (k, a) ∈ m) : lookupKV m k = some a := by
  induction m with
  | nil => simp at h
  | cons e t ih =>
    rcases List.mem_cons.1 h with h | h
    · cases h; simp [lookupKV_cons]
    · rw [lookupKV_cons]
      have hk : k ∈ keysOf t := List.mem_map.2 ⟨_, h, rfl⟩
      have : e.1 ≠ k := by
        rintro rfl
        exact (List.nodup_cons.1 hd).1 hk
      simp only [this, if_false]
      exact ih (List.nodup_cons.1 hd).2 h

@[simp] theorem eraseKV_nil (k : κ) : eraseKV k ([] : List (κ × α)) = [] := rfl

theorem eraseKV_cons (k : κ) (e : κ × α) (t : List (κ × α)) :
    eraseKV k (e :: t) = if e.1 = k then t else e :: eraseKV k t := rfl

theorem mem_of_mem_eraseKV {m : List (κ × α)} {k : κ} {e : κ × α}
    (h : e ∈ eraseKV k m) : e ∈ m := by
  induction m with
  | nil => simp at h
  | cons e' t ih =>
    rw [eraseKV_cons] at h
    split at h
    · exact List.mem_cons_of_mem _ h
    · rcases List.mem_cons.1 h with h | h
      · simp [h]
      · exact List.mem_cons_of_mem _ (ih h)

theorem lookupKV_eraseKV_ne {m : List (κ × α)} {j k : κ} (h : k ≠ j) :
    lookupKV (eraseKV j m) k = lookupKV m k := by
  induction m with
  | nil => rfl
  | cons e t ih =>
    rw [eraseKV_cons]
    split
    · next he => rw [lookupKV_cons, he, if_neg (fun hh => h hh.symm)]
    · rw [lookupKV_cons, lookupKV_cons, ih]

theorem lookupKV_eraseKV_self {m : List (κ × α)} {k : κ}
    (hd : (keysOf m).Nodup) : lookupKV (eraseKV k m) k = none := by
  induction m with
  | nil => rfl
  | cons e t ih =>
    rw [eraseKV_cons]
    split
    · next he =>
      rw [lookupKV_eq_none_iff]
      intro hk
      exact (List.nodup_cons.1 hd).1 (he ▸ hk)
    · next he =>
      rw [lookupKV_cons, if_neg he]
      exact ih (List.nodup_cons.1 hd).2

theorem keysOf_eraseKV_subset {m : List (κ × α)} {k : κ} {x : κ}
    (h : x ∈ keysOf (eraseKV k m)) : x ∈ keysOf m := by
  rcases List.mem_map.1 h with ⟨e, he, rfl⟩
  exact List.mem_map.2 ⟨e, mem_of_mem_eraseKV he, rfl⟩

theorem mem_keysOf_eraseKV {m : List (κ × α)} {k x : κ}
    (hx : x ∈ keysOf m) (hne : x ≠ k) : x ∈ keysOf (eraseKV k m) := by
  induction m with
  | nil => simp at hx
  | cons e t ih =>
    rw [eraseKV_cons]
    rcases List.mem_cons.1 hx with h | h
    · split
      · next he => exact absurd (h.trans he) hne
      · simp [h]
    · split
      · exact h
      · exact List.mem_cons_of_mem _ (ih h)

theorem nodup_keysOf_eraseKV {m : List (κ × α)} {k : κ}
    (hd : (keysOf m).Nodup) : (keysOf (eraseKV k m)).Nodup := by
  induction m with
  | nil => simp
  | cons e t ih =>
    rw [eraseKV_cons]
    split
    · exact (List.nodup_cons.1 hd).2
    · rw [keysOf_cons, List.nodup_cons]
      refine ⟨fun hmem => ?_, ih (List.nodup_cons.1 hd).2⟩
      exact (List.nodup_cons.1 hd).1 (keysOf_eraseKV_subset hmem)

@[simp] theorem mapKV_nil (k : κ) (f : α → α) : mapKV k f ([] : List (κ × α)) = [] := rfl

theorem mapKV_cons (k : κ) (f : α → α) (e : κ × α) (t : List (κ × α)) :
    mapKV k f (e :: t) =
      (if e.1 = k then (e.1, f e.2) else e) :: mapKV k f t := rfl

theorem keysOf_mapKV (k : κ) (f : α → α) (m : List (κ × α)) :
    keysOf (mapKV k f m) = keysOf m := by
  induction m with
  | nil => rfl
  | cons e t ih =>
    rw [mapKV_cons, keysOf_cons, keysOf_cons, ih]
    split <;> rfl

theorem lookupKV_mapKV_self (k : κ) (f : α → α) (m : List (κ × α)) :
    lookupKV (mapKV k f m) k = (lookupKV m k).map f := by
  induction m with
  | nil => rfl
  | cons e t ih =>
    rw [mapKV_cons, lookupKV_cons, lookupKV_cons]
    by_cases h : e.1 = k <;> simp [h, ih]

theorem lookupKV_mapKV_ne {k j : κ} (f : α → α) (m : List (κ × α)) (h : j ≠ k) :
    lookupKV (mapKV k f m) j = lookupKV m j := by
  induction m with
  | nil => rfl
  | cons e t ih =>
    rw [mapKV_cons, lookupKV_cons, lookupKV_cons]
    by_cases he : e.1 = k
    · subst he
      rw [if_pos rfl]
      rw [if_neg (fun hh => h hh.symm), if_neg (fun hh => h hh.symm), ih]
    · rw [if_neg he, ih]

theorem mapKV_of_not_mem {k : κ} {f : α → α} {m : List (κ × α)}
    (h : k ∉ keysOf m) : mapKV k f m = m := by
  induction m with
  | nil => rfl
  | cons e t ih =>
    rw [keysOf_cons, List.mem_cons] at h
    push_neg at h
    rw [mapKV_cons, if_neg (fun hh => h.1 hh.symm), ih h.2]

theorem mem_mapKV {k : κ} {f : α → α} {m : List (κ × α)} {e : κ × α}
    (h : e ∈ mapKV k f m) :
    ∃ e' ∈ m, e = if e'.1 = k then (e'.1, f e'.2) else e' := by
  rcases List.mem_map.1 h with ⟨e', he', rfl⟩
  exact ⟨e', he', rfl⟩

theorem emplaceKV_of_present {k : κ} {v : α} {m : List (κ × α)}
    (h : (lookupKV m k).isSome) : emplaceKV k v m = m := by
  unfold emplaceKV; rw [if_pos h]

theorem emplaceKV_of_absent {k : κ} {v : α} {m : List (κ × α)}
    (h : lookupKV m k = none) : emplaceKV k v m = (k, v) :: m := by
  unfold emplaceKV; rw [h]; rfl

theorem lookupKV_emplaceKV_ne {k j : κ} {v : α} {m : List (κ × α)} (h : j ≠ k) :
    lookupKV (emplaceKV k v m) j = lookupKV m j := by
  unfold emplaceKV
  split
  · rfl
  · rw [lookupKV_cons, if_neg (fun hh => h hh.symm)]

end MapLemmas

/-! ## Lemmas about `childCount` and `pins` -/

@[simp] theorem childCount_nil (x : Nat) : childCount [] x = 0 := rfl

theorem childCount_cons (e : Nat × Anchor) (t : List (Nat × Anchor)) (x : Nat) :
    childCount (e :: t) x = childCount t x + (if e.2.dirino = x then 1 else 0) := by
  unfold childCount
  rw [List.countP_cons]
  simp [beq_iff_eq]

theorem childCount_eraseKV {m : List (Nat × Anchor)} {k : Nat} {a : Anchor}
    (h : lookupKV m k = some a) (x : Nat) :
    childCount m x = childCount (eraseKV k m) x + (if a.dirino = x then 1 else 0) := by
  induction m with
  | nil => simp at h
  | cons e t ih =>
    rw [lookupKV_cons] at h
    rw [eraseKV_cons]
    split at h
    · next he =>
      cases h
      rw [if_pos he, childCount_cons]
    · next he =>
      rw [if_neg he, childCount_cons, childCount_cons, ih h]
      ring

theorem childCount_mapKV_preserve {m : List (Nat × Anchor)} {k : Nat}
    {f : Anchor → Anchor} (hf : ∀ a, (f a).dirino = a.dirino) (x : Nat) :
    childCount (mapKV k f m) x = childCount m x := by
  induction m with
  | nil => rfl
  | cons e t ih =>
    rw [mapKV_cons, childCount_cons, childCount_cons, ih]
    split
    · simp [hf]
    · rfl

theorem childCount_mapKV_dirino {m : List (Nat × Anchor)} {k : Nat} {a : Anchor}
    {f : Anchor → Anchor} (hd : (keysOf m).Nodup) (h : lookupKV m k = some a)
    (x : Nat) :
    childCount (mapKV k f m) x + (if a.dirino = x then 1 else 0) =
      childCount m x + (if (f a).dirino = x then 1 else 0) := by
  induction m with
  | nil => simp at h
  | cons e t ih =>
    rw [lookupKV_cons] at h
    rw [mapKV_cons, childCount_cons, childCount_cons]
    split at h
    · next he =>
      cases h
      rw [if_pos he]
      have hnot : k ∉ keysOf t := he ▸ (List.nodup_cons.1 hd).1
      rw [mapKV_of_not_mem hnot]
      simp only []
      ring
    · next he =>
      rw [if_neg he]
      have := ih (List.nodup_cons.1 hd).2 h
      omega

theorem childCount_eq_zero_of_closure {m : List (Nat × Anchor)} {x : Nat}
    (hx : x ≠ 0) (hcl : ∀ e ∈ m, e.2.dirino ≠ 0 → e.2.dirino ∈ keysOf m)
    (hnot : x ∉ keysOf m) : childCount m x = 0 := by
  rw [childCount, List.countP_eq_zero]
  intro e he
  simp only [beq_iff_eq]
  intro hdx
  exact hnot (hdx ▸ hcl e he (hdx ▸ hx))

/-! ## C4: the `should_log_open` decision procedure -/

/-- C4: `should_log_open` returns true when the inode is untracked; false
when it is tracked and was journaled at or after `committing_log_seq`; false
when it is tracked, journaled before `committing_log_seq`, and has no dirty
entry; and true otherwise. -/
theorem C4_should_log_open_characterization (st : OftState) (ino lj : Nat) :
    (ino ∉ st.tracked → should_log_open st ino lj = true) ∧
    (ino ∈ st.tracked → st.committing_log_seq ≤ lj →
      should_log_open st ino lj = false) ∧
    (ino ∈ st.tracked → lj < st.committing_log_seq →
      lookupKV st.dirty_items ino = none → should_log_open st ino lj = false) ∧
    (ino ∈ st.tracked → lj < st.committing_log_seq →
      lookupKV st.dirty_items ino ≠ none → should_log_open st ino lj = true) := by
  refine ⟨?_, ?_, ?_, ?_⟩
  · intro h
    simp [should_log_open, h]
  · intro h1 h2
    simp [should_log_open, h1, h2]
  · intro h1 h2 h3
    simp [should_log_open, h1, Nat.not_le.mpr h2, h3]
  · intro h1 h2 h3
    obtain ⟨v, hv⟩ := Option.ne_none_iff_exists'.mp h3
    simp [should_log_open, h1, Nat.not_le.mpr h2, hv]

/-- C4 (witness): the characterization applied to concrete states — an
untracked inode, the suppressed case `last_journaled = 7 ≥ committing = 5`,
and the positive case `last_journaled = 7 < committing = 10` with a dirty
entry. -/
theorem C4_witness :
    should_log_open initState 16 7 = true ∧
    should_log_open stSlo 16 7 = false ∧
    should_log_open stSlo10 16 7 = true :=
  ⟨(C4_should_log_open_characterization initState 16 7).1 (by decide),
   (C4_should_log_open_characterization stSlo 16 7).2.1 (by decide) (by decide),
   (C4_should_log_open_characterization stSlo10 16 7).2.2.2 (by decide) (by decide)
     (by decide)⟩

/-! ## C3: the concrete `should_log_open` scenario of spec §8 is inverted -/

/-- C3 (counterexample): with `last_journaled = 7`, a dirty entry present and
the inode tracked, the code returns `false` for `committing_log_seq = 5`
(because `7 ≥ 5`: the inode was journaled after the commit cut-off) and
`true` for `committing_log_seq = 10` — exactly the opposite of the claim. -/
theorem C3_counterexample :
    ¬ (should_log_open stSlo 16 7 = true ∧ should_log_open stSlo10 16 7 = false) := by
  decide

/-- C3 (amended): for a tracked inode with `last_journaled = 7` and a dirty
entry, `should_log_open` returns `false` when `committing_log_seq = 5` and
`true` when `committing_log_seq = 10`. -/
theorem C3_amended_scenario :
    lookupKV stSlo.dirty_items 16 = some 0 ∧ 16 ∈ stSlo.tracked ∧
    should_log_open stSlo 16 7 = false ∧
    lookupKV stSlo10.dirty_items 16 = some 0 ∧ 16 ∈ stSlo10.tracked ∧
    should_log_open stSlo10 16 7 = true := by
  decide

/-! ## C2: load with a zero header -/

/-- C2 (counterexample): `_load_finish` on the first page with a decoded
header of `0` leaves `clear_on_commit` at `false`: the `log_seq == 0` branch
jumps straight to `out` without setting it (unlike the read-error and
decode-error paths). -/
theorem C2_counterexample :
    ((loadFinish 0 true false (some 0) [("10", some ⟨16, 1, "a", DT_REG⟩)] initState).map
      (fun r => r.1.clear_on_commit)) = some false := by
  decide

/-- C2 (amended): when the header decoded on the first page equals `0`, load
completes immediately: the loaded anchor map stays empty, `load_done` is
true, the load waiters are fired, both commit counters are set to `0` — and
`clear_on_commit` is left unchanged (it is *not* set to true). -/
theorem C2_amended_header_zero (st : OftState)
    (values : List (String × Option PAnchor)) (h : st.loaded_anchor_map = []) :
    ∃ st', loadFinish 0 true false (some 0) values st =
        some (st', st.waiting_for_load, false) ∧
      st'.loaded_anchor_map = [] ∧ st'.load_done = true ∧
      st'.waiting_for_load = 0 ∧ st'.clear_on_commit = st.clear_on_commit ∧
      st'.committed_log_seq = 0 ∧ st'.committing_log_seq = 0 := by
  refine ⟨_, rfl, ?_, rfl, rfl, rfl, rfl, rfl⟩
  simpa using h

/-- C2 (witness): the amended statement evaluated on a concrete state with a
registered waiter and a non-empty first page. -/
theorem C2_amended_header_zero_witness :
    ∃ st', loadFinish 0 true false (some 0) [("10", some ⟨16, 1, "a", DT_REG⟩)]
        { initState with waiting_for_load := 2 } =
        some (st', ({ initState with waiting_for_load := 2 } : OftState).waiting_for_load, false) ∧
      st'.loaded_anchor_map = [] ∧ st'.load_done = true ∧
      st'.waiting_for_load = 0 ∧
      st'.clear_on_commit = ({ initState with waiting_for_load := 2 } : OftState).clear_on_commit ∧
      st'.committed_log_seq = 0 ∧ st'.committing_log_seq = 0 :=
  C2_amended_header_zero { initState with waiting_for_load := 2 }
    [("10", some ⟨16, 1, "a", DT_REG⟩)] rfl

/-! ## C10: the decoded header feeds both commit counters -/

/-- C10: whenever the first page of load decodes a header value `v` and
`_load_finish` completes without aborting, both `committed_log_seq` and
`committing_log_seq` equal `v` (whether or not `v = 0`, and on every path:
abandon, decode error, done, or continue-to-next-page), and a subsequent
`commit(log_seq)` passes its precondition exactly when `v ≤ log_seq`. -/
theorem C10_load_header_sets_both_counters (more : Bool) (v : Nat)
    (values : List (String × Option PAnchor)) (st st' : OftState) (w : Nat)
    (cont : Bool)
    (h : loadFinish 0 true more (some v) values st = some (st', w, cont)) :
    st'.committed_log_seq = v ∧ st'.committing_log_seq = v ∧
    (∀ maxw seq, (commit maxw seq st').isSome ↔ v ≤ seq) := by
  have hcc : st'.committed_log_seq = v ∧ st'.committing_log_seq = v := by
    by_cases hv : v = 0
    · subst hv
      simp only [loadFinish, finishLoad] at h
      norm_num at h
      obtain ⟨h1, -, -⟩ := h
      subst h1
      exact ⟨rfl, rfl⟩
    · simp only [loadFinish, finishLoad] at h
      norm_num [hv] at h
      rcases hl : loadValues values st.loaded_anchor_map with m | _ | _ <;>
        rw [hl] at h <;> simp only [] at h
      · -- ok: finished or continued to the next page
        rcases more with _ | _ <;>
          simp only [Bool.false_eq_true, if_false, if_true, reduceIte,
            Option.some.injEq, Prod.mk.injEq] at h <;>
        · obtain ⟨h1, -, -⟩ := h
          subst h1
          exact ⟨rfl, rfl⟩
      · -- decode error caught
        simp only [Option.some.injEq, Prod.mk.injEq] at h
        obtain ⟨h1, -, -⟩ := h
        subst h1
        exact ⟨rfl, rfl⟩
      · -- assert failure: contradicts h
        exact Option.noConfusion h
  refine ⟨hcc.1, hcc.2, ?_⟩
  intro maxw seq
  unfold commit
  rw [hcc.2]
  by_cases hle : v ≤ seq
  · simp [hle]
  · simp [hle]

/-- C10 (witness): the theorem applied to the concrete load of a one-entry
object with header `5`, checking `commit` at sequence numbers `4` and `5`. -/
theorem C10_witness :
    (∃ st', loadFinish 0 true false (some 5) [("10", some ⟨16, 1, "a", DT_REG⟩)]
        initState = some (st', 0, false) ∧
      st'.committed_log_seq = 5 ∧ st'.committing_log_seq = 5 ∧
      ¬ (commit 1000 4 st').isSome ∧ (commit 1000 6 st').isSome) := by
  refine ⟨_, rfl, ?_⟩
  have h := C10_load_header_sets_both_counters false 5
    [("10", some ⟨16, 1, "a", DT_REG⟩)] initState _ 0 false rfl
  refine ⟨h.1, h.2.1, ?_, (h.2.2 1000 6).mpr (by decide)⟩
  intro hc
  exact absurd ((h.2.2 1000 4).mp hc) (by decide)

/-! ## C1: the return value of `prefetch_inodes` -/

/-- C1 (counterexample): with load done and an empty loaded map, the
two-phase prefetch runs to `DONE` synchronously inside the call, yet
`prefetch_inodes` returns `false` (it returns `!is_prefetched()`, and `true`
in the register-as-load-waiter case) — the opposite of the claimed
"true iff completed synchronously". -/
theorem C1_counterexample :
    (prefetch_inodes envW 4 stPreW).map (fun r => (r.1.prefetch_state, r.2.1)) =
      some (DONE, false) := by
  decide

/-- C1 (amended): the boolean returned by `prefetch_inodes` is true iff the
prefetch has NOT completed by the time the call returns (it is still waiting
for load, or asynchronous opens are outstanding): i.e. it returns
`!is_prefetched()`. -/
theorem C1_amended_returns_pending (env : PrefetchEnv) (fuel : Nat)
    (st st' : OftState) (b : Bool) (opens : List Nat)
    (h : prefetch_inodes env fuel st = some (st', b, opens)) :
    b = true ↔ st'.prefetch_state ≠ DONE := by
  unfold prefetch_inodes at h
  split at h
  · exact Option.noConfusion h
  · simp only [] at h
    split at h
    · -- load not done: registered as load waiter, returns true
      simp only [Option.some.injEq, Prod.mk.injEq] at h
      obtain ⟨h1, h2, -⟩ := h
      subst h1
      simp [← h2, DIR_INODES, DONE]
    · -- load done: returns !is_prefetched()
      split at h
      · exact Option.noConfusion h
      · next heq =>
        simp only [Option.some.injEq, Prod.mk.injEq] at h
        obtain ⟨h1, h2, -⟩ := h
        subst h1
        simp [← h2, is_prefetched]

/-- C1 (witness): the amended statement on the concrete synchronous run. -/
theorem C1_witness :
    (false = true ↔
      ({ stPreW with prefetch_state := DONE } : OftState).prefetch_state ≠ DONE) :=
  C1_amended_returns_pending envW 4 stPreW _ false [] rfl

/-! ## C6: the commit-marker (header) protocol -/

theorem getLast_append_singleton {α : Type} (x : α) :
    ∀ (l : List α), (l ++ [x]).getLast? = some x := by
  intro l
  induction l with
  | nil => rfl
  | cons e t ih =>
    rw [List.cons_append, List.getLast?_cons, ih]
    cases t <;> simp_all

theorem idx_append_left {α : Type} :
    ∀ (l₁ l₂ : List α) (i : Nat), i < l₁.length → (l₁ ++ l₂)[i]? = l₁[i]? := by
  intro l₁
  induction l₁ with
  | nil => intro l₂ i hi; simp at hi
  | cons e t ih =>
    intro l₂ i hi
    cases i with
    | zero => simp
    | succ n =>
      simp only [List.cons_append, List.getElem?_cons_succ]
      exact ih l₂ n (by simpa using hi)

theorem idx_append_at {α : Type} :
    ∀ (l : List α) (x : α), (l ++ [x])[l.length]? = some x := by
  intro l x
  induction l with
  | nil => rfl
  | cons e t ih => simp [ih]

theorem idx_singleton_some {α : Type} {x y : α} {i : Nat}
    (h : ([x] : List α)[i]? = some y) : i = 0 ∧ y = x := by
  cases i with
  | zero => simp at h; exact ⟨rfl, h.symm⟩
  | succ n => simp at h

theorem idx_append_some {α : Type} {l₁ l₂ : List α} {i : Nat} {y : α}
    (h : (l₁ ++ l₂)[i]? = some y) (hi : i < l₁.length) : l₁[i]? = some y := by
  rw [idx_append_left l₁ l₂ i hi] at h
  exact h

theorem commitFlush_false_ops (log_seq : Nat) (a : CommitAcc) :
    (commitFlush log_seq false a).ops =
      a.ops ++ [{ clear := a.clear_on_commit,
                  header := if a.first = true then some 0 else none,
                  updates := a.to_update, removes := a.to_remove }] := rfl

theorem commitFlush_true_ops (log_seq : Nat) (a : CommitAcc) :
    (commitFlush log_seq true a).ops =
      a.ops ++ [{ clear := a.clear_on_commit, header := some log_seq,
                  updates := a.to_update, removes := a.to_remove }] := rfl

theorem headerInv_flush_false (log_seq : Nat) (a : CommitAcc)
    (h : headerInv a) : headerInv (commitFlush log_seq false a) := by
  obtain ⟨h1, h2⟩ := h
  constructor
  · simp [commitFlush]
  · intro i op hop
    rw [commitFlush_false_ops] at hop
    by_cases hlt : i < a.ops.length
    · exact h2 i op (idx_append_some hop hlt)
    · have hi : i = a.ops.length := by
        by_contra hne
        have : a.ops.length < i := by omega
        obtain ⟨k, rfl⟩ : ∃ k, i = a.ops.length + (k + 1) :=
          ⟨i - a.ops.length - 1, by omega⟩
        rw [List.getElem?_append_right (by omega)] at hop
        have : a.ops.length + (k + 1) - a.ops.length = k + 1 := by omega
        rw [this] at hop
        simp at hop
      subst hi
      rw [idx_append_at] at hop
      cases hop
      by_cases hf : a.first = true
      · have hnil := h1.mp hf
        simp [hf, hnil]
      · have hne : a.ops ≠ [] := fun hn => hf (h1.mpr hn)
        have hlen : a.ops.length ≠ 0 := fun h0 => hne (List.length_eq_zero.mp h0)
        simp [hf, hlen]

theorem headerInv_addItem (am : List (Nat × Anchor)) (maxw log_seq ino : Nat)
    (a : CommitAcc) (h : headerInv a) :
    headerInv (commitAddItem am maxw log_seq ino a) := by
  unfold commitAddItem
  rcases lookupKV am ino with _ | pa <;>
    · simp only []
      split
      · exact headerInv_flush_false _ _ h
      · exact h

theorem headerInv_dirtyLoop (am : List (Nat × Anchor)) (fc : Bool)
    (maxw log_seq : Nat) :
    ∀ (items : List (Nat × Nat)) (a : CommitAcc), headerInv a →
      headerInv (commitDirtyLoop am fc maxw log_seq items a) := by
  intro items
  induction items with
  | nil => intro a h; exact h
  | cons e t ih =>
    intro a h
    rcases e with ⟨ino, fl⟩
    unfold commitDirtyLoop
    rcases hq : (if fc then lookupKV a.loaded ino else none) with _ | qa
    · simp only []
      exact ih _ (headerInv_addItem am maxw log_seq ino a h)
    · simp only []
      split
      · exact ih _ h
      · exact ih _ (headerInv_addItem am maxw log_seq ino _ h)

theorem headerInv_removeLoop (maxw log_seq : Nat) :
    ∀ (items : List (Nat × Anchor)) (a : CommitAcc), headerInv a →
      headerInv (commitRemoveLoop maxw log_seq items a) := by
  intro items
  induction items with
  | nil => intro a h; exact h
  | cons e t ih =>
    intro a h
    rcases e with ⟨ino, anc⟩
    unfold commitRemoveLoop
    simp only []
    split
    · exact ih _ (headerInv_flush_false _ _ h)
    · exact ih _ h

theorem headerInv_commitAcc (maxw log_seq : Nat) (st : OftState) :
    headerInv (commitAcc maxw log_seq st) := by
  have hinv0 : headerInv (commitAcc0 st) := by
    constructor
    · simp [commitAcc0]
    · intro i op hop
      simp [commitAcc0] at hop
  unfold commitAcc
  simp only []
  split
  · exact headerInv_removeLoop _ _ _ _ (headerInv_dirtyLoop _ _ _ _ _ _ hinv0)
  · exact headerInv_dirtyLoop _ _ _ _ _ _ hinv0

theorem commit_ops_eq (maxw log_seq : Nat) (st st' : OftState)
    (ops : List SubOp) (h : commit maxw log_seq st = some (st', ops)) :
    ops = (commitAcc maxw log_seq st).ops ++
      [{ clear := (commitAcc maxw log_seq st).clear_on_commit,
         header := some log_seq,
         updates := (commitAcc maxw log_seq st).to_update,
         removes := (commitAcc maxw log_seq st).to_remove }] := by
  unfold commit at h
  split at h
  · simp only [Option.some.injEq, Prod.mk.injEq] at h
    obtain ⟨-, hops⟩ := h
    rw [← hops]
    exact (commitFlush_true_ops log_seq (commitAcc maxw log_seq st)).symm ▸ rfl
  · exact Option.noConfusion h

/-- C6: in every commit with a genuine (non-zero) `log_seq`, the header is
set to `log_seq` only in the final sub-operation; in a multi-sub-op commit
the first sub-op sets the header to `0` and no intermediate sub-op sets it
at all; a single-sub-op commit sets the header directly to `log_seq`, never
to `0`. -/
theorem C6_commit_header_protocol (maxw log_seq : Nat) (st st' : OftState)
    (ops : List SubOp) (hseq : 0 < log_seq)
    (h : commit maxw log_seq st = some (st', ops)) :
    ops ≠ [] ∧
    (ops.getLast?).map SubOp.header = some (some log_seq) ∧
    (∀ i op, i + 1 < ops.length → ops[i]? = some op →
      op.header = if i = 0 then some 0 else none) ∧
    (∀ i op, i + 1 < ops.length → ops[i]? = some op →
      op.header ≠ some log_seq) ∧
    (ops.length = 1 →
      ops.head?.map SubOp.header = some (some log_seq) ∧
      ops.head?.map SubOp.header ≠ some (some 0)) := by
  have hops2 := commit_ops_eq maxw log_seq st st' ops h
  obtain ⟨hfirst, hhead⟩ := headerInv_commitAcc maxw log_seq st
  subst hops2
  refine ⟨by simp, ?_, ?_, ?_, ?_⟩
  · rw [getLast_append_singleton]
    rfl
  · intro i op hi hop
    simp only [List.length_append, List.length_cons, List.length_nil] at hi
    have hlt : i < (commitAcc maxw log_seq st).ops.length := by omega
    exact hhead i op (idx_append_some hop hlt)
  · intro i op hi hop
    simp only [List.length_append, List.length_cons, List.length_nil] at hi
    have hlt : i < (commitAcc maxw log_seq st).ops.length := by omega
    rw [hhead i op (idx_append_some hop hlt)]
    split
    · intro hc
      cases hc
      omega
    · exact Option.noConfusion
  · intro hone
    simp only [List.length_append, List.length_cons, List.length_nil] at hone
    have hnil : (commitAcc maxw log_seq st).ops = [] :=
      List.length_eq_zero.mp (by omega)
    rw [hnil, List.nil_append]
    refine ⟨rfl, ?_⟩
    intro hc
    simp only [List.head?_cons, Option.map_some, Option.some.injEq] at hc
    cases hc
    omega

/-- C6 (witness): the header protocol on a concrete single-sub-op commit of
two dirty anchors at `log_seq = 5`. -/
theorem C6_witness :
    ∃ st' ops, commit 1000 5 stCommitW = some (st', ops) ∧ ops ≠ [] ∧
      (ops.getLast?).map SubOp.header = some (some 5) := by
  refine ⟨_, _, rfl, ?_⟩
  have h := C6_commit_header_protocol 1000 5 stCommitW _ _ (by decide) rfl
  exact ⟨h.1, h.2.1⟩

/-! ## C9: `get_ancestors` -/

theorem ancLoop_step (loaded : List (Nat × Anchor)) (fuel : Nat) (p : Anchor)
    (dirino : Nat) (first : Bool) (anc : List (Nat × String × Nat)) (hint : Int) :
    ancLoop loaded (fuel + 1) p dirino first anc hint =
      match lookupKV loaded dirino with
      | none => some (anc ++ [(dirino, p.d_name, 0)], hint)
      | some q =>
        if q.dirino = 0 then
          some (anc ++ [(dirino, p.d_name, 0)], if first then q.auth else hint)
        else
          ancLoop loaded fuel q q.dirino false (anc ++ [(dirino, p.d_name, 0)])
            (if first then q.auth else hint) := rfl

theorem ancLoop_spec (loaded : List (Nat × Anchor)) :
    ∀ (fuel : Nat) (p : Anchor) (anc : List (Nat × String × Nat)) (hint : Int)
      (first : Bool) (res : List (Nat × String × Nat)) (h' : Int),
      ancLoop loaded fuel p p.dirino first anc hint = some (res, h') →
      res = anc ++ specAncestorChain loaded fuel p ∧
      h' = (if first then
              (match lookupKV loaded p.dirino with
               | some q => q.auth
               | none => hint)
            else hint) := by
  intro fuel
  induction fuel with
  | zero => intro p anc hint first res h' h; exact Option.noConfusion h
  | succ fuel ih =>
    intro p anc hint first res h' h
    rw [ancLoop_step] at h
    rcases hq : lookupKV loaded p.dirino with _ | q
    · rw [hq] at h
      simp only [Option.some.injEq, Prod.mk.injEq] at h
      obtain ⟨h1, h2⟩ := h
      subst h1; subst h2
      constructor
      · unfold specAncestorChain
        rw [hq]
      · cases first <;> simp
    · rw [hq] at h
      simp only [] at h
      by_cases hq0 : q.dirino = 0
      · rw [if_pos hq0] at h
        simp only [Option.some.injEq, Prod.mk.injEq] at h
        obtain ⟨h1, h2⟩ := h
        subst h1; subst h2
        constructor
        · unfold specAncestorChain
          rw [hq]
          simp [hq0]
        · cases first <;> simp
      · rw [if_neg hq0] at h
        obtain ⟨h1, h2⟩ := ih q _ _ false res h' h
        constructor
        · rw [h1]
          conv_rhs => unfold specAncestorChain
          rw [hq]
          simp [hq0]
        · rw [h2]
          cases first <;> simp

/-- C9: `get_ancestors` returns true iff the inode is in the loaded map with
a non-zero `dirino`; in that case the output vector is exactly the spec's
upward walk (stopping at a parent absent from the loaded map or with zero
`dirino`), and the auth hint is the first-hop parent's `auth` when that
parent is present in the loaded map (and keeps its input value otherwise). -/
theorem C9_get_ancestors_characterization (loaded : List (Nat × Anchor))
    (fuel ino : Nat) (anc0 : List (Nat × String × Nat)) (hint0 : Int)
    (b : Bool) (anc : List (Nat × String × Nat)) (hint : Int)
    (h : get_ancestors loaded fuel ino anc0 hint0 = some (b, anc, hint)) :
    (b = true ↔ ∃ a, lookupKV loaded ino = some a ∧ a.dirino ≠ 0) ∧
    (∀ a, lookupKV loaded ino = some a → a.dirino ≠ 0 →
      anc = specAncestorChain loaded fuel a ∧
      hint = (match lookupKV loaded a.dirino with
              | some q => q.auth
              | none => hint0)) := by
  unfold get_ancestors at h
  rcases hq : lookupKV loaded ino with _ | p
  · rw [hq] at h
    simp only [Option.some.injEq, Prod.mk.injEq] at h
    obtain ⟨h1, -, -⟩ := h
    constructor
    · simp [← h1, hq]
    · intro a ha
      exact Option.noConfusion ha
  · rw [hq] at h
    simp only [] at h
    by_cases hp0 : p.dirino = 0
    · rw [if_pos hp0] at h
      simp only [Option.some.injEq, Prod.mk.injEq] at h
      obtain ⟨h1, -, -⟩ := h
      constructor
      · subst h1
        simp only [Bool.false_eq_true, false_iff]
        rintro ⟨a, ha, hd⟩
        cases ha
        exact hd hp0
      · intro a ha hd
        cases ha
        exact absurd hp0 hd
    · rw [if_neg hp0] at h
      rcases hw : ancLoop loaded fuel p p.dirino true [] hint0 with _ | w
      · rw [hw] at h
        exact Option.noConfusion h
      · rcases w with ⟨res, hres⟩
        rw [hw] at h
        simp only [Option.some.injEq, Prod.mk.injEq] at h
        obtain ⟨h1, h2, h3⟩ := h
        obtain ⟨hr, hh⟩ := ancLoop_spec loaded fuel p [] hint0 true res hres hw
        constructor
        · subst h1
          simp only [true_iff]
          exact ⟨p, rfl, hp0⟩
        · intro a ha hd
          cases ha
          subst h2; subst h3
          refine ⟨by simpa using hr, by simpa using hh⟩

/-! ## C5: the refcount invariant -/

theorem mem_keysOf_of_mem {κ α : Type} {m : List (κ × α)} {e : κ × α}
    (he : e ∈ m) : e.1 ∈ keysOf m := List.mem_map.2 ⟨e, he, rfl⟩

theorem pins_def (d : List Nat) (m : List (Nat × Anchor)) (x : Nat) :
    pins d m x = (if x ∈ d then 1 else 0) + childCount m x := rfl

theorem childCount_cons_pair (j : Nat) (anc : Anchor)
    (t : List (Nat × Anchor)) (x : Nat) :
    childCount ((j, anc) :: t) x =
      childCount t x + (if anc.dirino = x then 1 else 0) := by
  rw [childCount_cons]

theorem pins_cons_anchor (d : List Nat) (j : Nat) (anc : Anchor)
    (m : List (Nat × Anchor)) (x : Nat) :
    pins d ((j, anc) :: m) x = pins d m x + (if anc.dirino = x then 1 else 0) := by
  unfold pins
  rw [childCount_cons_pair]
  omega

theorem pins_mapKV_preserve {f : Anchor → Anchor}
    (hf : ∀ a, (f a).dirino = a.dirino) (d : List Nat) (k : Nat)
    (m : List (Nat × Anchor)) (x : Nat) :
    pins d (mapKV k f m) x = pins d m x := by
  unfold pins
  rw [childCount_mapKV_preserve hf]

theorem pins_eraseKV {m : List (Nat × Anchor)} {k : Nat} {a : Anchor}
    (hl : lookupKV m k = some a) (d : List Nat) (x : Nat) :
    pins d m x = pins d (eraseKV k m) x + (if a.dirino = x then 1 else 0) := by
  unfold pins
  rw [childCount_eraseKV hl x]
  omega

theorem pins_mapKV_dirino {m : List (Nat × Anchor)} {k : Nat} {a : Anchor}
    {f : Anchor → Anchor} (hd : (keysOf m).Nodup) (hl : lookupKV m k = some a)
    (d : List Nat) (x : Nat) :
    pins d (mapKV k f m) x + (if a.dirino = x then 1 else 0) =
      pins d m x + (if (f a).dirino = x then 1 else 0) := by
  unfold pins
  have := childCount_mapKV_dirino (f := f) hd hl x
  omega

theorem pins_cons_direct {i : Nat} {d : List Nat} (hni : i ∉ d)
    (m : List (Nat × Anchor)) (x : Nat) :
    pins (i :: d) m x = pins d m x + (if x = i then 1 else 0) := by
  unfold pins
  have hmc : (x ∈ i :: d) ↔ (x = i ∨ x ∈ d) := List.mem_cons
  by_cases hx : x = i
  · subst hx
    rw [if_pos (hmc.mpr (Or.inl rfl)), if_neg hni, if_pos rfl]
    omega
  · have h2 : (x ∈ i :: d) ↔ x ∈ d := by rw [hmc]; simp [hx]
    by_cases hxd : x ∈ d
    · rw [if_pos (h2.mpr hxd), if_pos hxd, if_neg hx]
      omega
    · rw [if_neg (fun hh => hxd (h2.mp hh)), if_neg hxd, if_neg hx]
      omega

theorem pins_erase_direct {i : Nat} {d : List Nat} (hnd : d.Nodup)
    (hi : i ∈ d) (m : List (Nat × Anchor)) (x : Nat) :
    pins d m x = pins (d.erase i) m x + (if x = i then 1 else 0) := by
  unfold pins
  have hmi : ∀ y, y ∈ d.erase i ↔ y ≠ i ∧ y ∈ d := fun y =>
    List.Nodup.mem_erase_iff hnd
  by_cases hx : x = i
  · subst hx
    rw [if_pos hi, if_neg (fun hh => ((hmi x).mp hh).1 rfl), if_pos rfl]
    omega
  · by_cases hxd : x ∈ d
    · rw [if_pos hxd, if_pos ((hmi x).mpr ⟨hx, hxd⟩), if_neg hx]
      omega
    · rw [if_neg hxd, if_neg (fun hh => hxd ((hmi x).mp hh).2), if_neg hx]
      omega

theorem childCount_eq_zero_of_closure_except {m : List (Nat × Anchor)}
    {x j : Nat} (hx : x ≠ 0) (hxj : x ≠ j)
    (hcl : ∀ e ∈ m, e.2.dirino ≠ 0 → e.2.dirino ∈ keysOf m ∨ e.2.dirino = j)
    (hnot : x ∉ keysOf m) : childCount m x = 0 := by
  rw [childCount, List.countP_eq_zero]
  intro e he
  simp only [beq_iff_eq]
  intro hdx
  rcases hcl e he (hdx ▸ hx) with hmem | hj
  · exact hnot (hdx ▸ hmem)
  · exact hxj (hdx ▸ hj)

theorem dirino_ne_of_childCount_zero {m : List (Nat × Anchor)} {j : Nat}
    (h : childCount m j = 0) {e : Nat × Anchor} (he : e ∈ m) :
    e.2.dirino ≠ j := by
  rw [childCount, List.countP_eq_zero] at h
  intro hd
  have := h e he
  simp [hd] at this

theorem pins_eq_zero_parts {d : List Nat} {m : List (Nat × Anchor)} {j : Nat}
    (h : pins d m j = 0) : j ∉ d ∧ childCount m j = 0 := by
  unfold pins at h
  by_cases hj : j ∈ d
  · rw [if_pos hj] at h
    omega
  · rw [if_neg hj] at h
    exact ⟨hj, by omega⟩

theorem get_ref_step (c : Cache) (fuel j : Nat) (st : OftState) :
    get_ref c (fuel + 1) j st =
      match lookupKV st.anchor_map j with
      | some a =>
        if j ∈ st.tracked ∧ 0 < a.nref then
          some { st with anchor_map := mapKV j (fun a => { a with nref := a.nref + 1 }) st.anchor_map }
        else none
      | none =>
        let pin := c.parent j
        let anc : Anchor :=
          { ino := j,
            dirino := match pin with | some (p, _) => p | none => 0,
            d_name := match pin with | some (_, nm) => nm | none => "",
            d_type := c.d_type j, nref := 1, auth := MDS_RANK_NONE }
        let stx : OftState :=
          { st with anchor_map := (j, anc) :: st.anchor_map,
                    tracked := j :: st.tracked,
                    dirty_items := emplaceKV j DIRTY_NEW st.dirty_items }
        match pin with
        | none => some stx
        | some (p, _) => get_ref c fuel p stx := rfl

theorem get_ref_inv (c : Cache) :
    ∀ (fuel j : Nat) (st st' : OftState) (d : List Nat),
      get_ref c fuel j st = some st' →
      j ≠ 0 →
      (keysOf st.anchor_map).Nodup →
      (∀ e ∈ st.anchor_map, e.2.ino = e.1 ∧ e.1 ≠ 0) →
      (∀ e ∈ st.anchor_map, e.2.dirino ≠ 0 →
        e.2.dirino ∈ keysOf st.anchor_map ∨ e.2.dirino = j) →
      (∀ x ∈ d, x ∈ keysOf st.anchor_map ∨ x = j) →
      (∀ e ∈ st.anchor_map,
        e.2.nref + (if e.1 = j then 1 else 0) = pins d st.anchor_map e.1) →
      (j ∉ keysOf st.anchor_map → pins d st.anchor_map j = 1) →
      ((keysOf st'.anchor_map).Nodup ∧
       (∀ e ∈ st'.anchor_map, e.2.ino = e.1 ∧ e.1 ≠ 0) ∧
       (∀ e ∈ st'.anchor_map, e.2.dirino ≠ 0 →
         e.2.dirino ∈ keysOf st'.anchor_map) ∧
       (∀ x, x ∈ keysOf st.anchor_map → x ∈ keysOf st'.anchor_map) ∧
       j ∈ keysOf st'.anchor_map ∧
       (∀ e ∈ st'.anchor_map, e.2.nref = pins d st'.anchor_map e.1)) := by
  intro fuel
  induction fuel with
  | zero => intro j st st' d h; exact Option.noConfusion h
  | succ fuel ih =>
    intro j st st' d h hj hnd hiz hcl hd hmain h2
    rw [get_ref_step] at h
    rcases hl : lookupKV st.anchor_map j with _ | a <;> rw [hl] at h <;>
      simp only [] at h
    · -- no pre-existing anchor: create one and climb
      have hjk : j ∉ keysOf st.anchor_map := (lookupKV_eq_none_iff _ _).mp hl
      rcases hp : c.parent j with _ | pnm <;> rw [hp] at h <;> simp only [] at h
      · -- no parent: stop after inserting
        cases h
        refine ⟨?_, ?_, ?_, ?_, ?_, ?_⟩
        · simp only [keysOf_cons]
          exact List.nodup_cons.mpr ⟨hjk, hnd⟩
        · intro e he
          rcases List.mem_cons.1 he with rfl | he'
          · exact ⟨rfl, hj⟩
          · exact hiz e he'
        · intro e he hdn
          rcases List.mem_cons.1 he with rfl | he'
          · exact absurd rfl hdn
          · rcases hcl e he' hdn with hmem | hjq
            · simp only [keysOf_cons]
              exact List.mem_cons_of_mem _ hmem
            · simp only [keysOf_cons, hjq]
              exact List.mem_cons_self _ _
        · intro x hx
          simp only [keysOf_cons]
          exact List.mem_cons_of_mem _ hx
        · simp only [keysOf_cons]
          exact List.mem_cons_self _ _
        · intro e he
          rcases List.mem_cons.1 he with rfl | he'
          · simp only []
            rw [pins_cons_anchor]
            simp only []
            rw [if_neg (fun hh : (0 : Nat) = j => hj hh.symm)]
            rw [h2 hjk]
          · have hej : e.1 ≠ j := fun hh => hjk (hh ▸ mem_keysOf_of_mem he')
            have := hmain e he'
            rw [if_neg hej] at this
            rw [pins_cons_anchor]
            simp only []
            rw [if_neg (fun hh : (0 : Nat) = e.1 => (hiz e he').2 hh.symm)]
            omega
      · -- parent exists: insert and recurse on the parent
        rcases pnm with ⟨p, nm⟩
        obtain ⟨hp0, hdepth⟩ := c.wf j p nm hp
        have hpj : p ≠ j := fun hh => absurd (hh ▸ hdepth) (lt_irrefl _)
        simp only [] at h
        have hmono1 : ∀ x, x ∈ keysOf st.anchor_map →
            x ∈ keysOf ((j, ⟨j, p, nm, c.d_type j, 1, MDS_RANK_NONE⟩) ::
              st.anchor_map) := by
          intro x hx
          simp only [keysOf_cons]
          exact List.mem_cons_of_mem _ hx
        have hrec := ih p _ st' d h hp0
          (by simp only [keysOf_cons]; exact List.nodup_cons.mpr ⟨hjk, hnd⟩)
          (by
            intro e he
            rcases List.mem_cons.1 he with rfl | he'
            · exact ⟨rfl, hj⟩
            · exact hiz e he')
          (by
            intro e he hdn
            rcases List.mem_cons.1 he with rfl | he'
            · exact Or.inr rfl
            · rcases hcl e he' hdn with hmem | hjq
              · exact Or.inl (hmono1 _ hmem)
              · refine Or.inl ?_
                simp only [keysOf_cons, hjq]
                exact List.mem_cons_self _ _)
          (by
            intro x hx
            rcases hd x hx with hmem | hjq
            · exact Or.inl (hmono1 _ hmem)
            · refine Or.inl ?_
              simp only [keysOf_cons, hjq]
              exact List.mem_cons_self _ _)
          (by
            intro e he
            rcases List.mem_cons.1 he with rfl | he'
            · simp only []
              rw [if_neg (fun hh : j = p => hpj hh.symm)]
              rw [pins_cons_anchor]
              simp only []
              rw [if_neg hpj, h2 hjk]
            · have hej : e.1 ≠ j := fun hh => hjk (hh ▸ mem_keysOf_of_mem he')
              have hm := hmain e he'
              rw [if_neg hej] at hm
              rw [pins_cons_anchor]
              simp only []
              by_cases hep : e.1 = p
              · rw [if_pos hep, if_pos hep.symm]
                omega
              · rw [if_neg hep, if_neg (fun hh : p = e.1 => hep hh.symm)]
                omega)
          (by
            intro hpk
            have hpm : p ∉ keysOf st.anchor_map := fun hx => hpk (hmono1 _ hx)
            have hpd : p ∉ d := by
              intro hx
              rcases hd p hx with hmem | hjq
              · exact hpm hmem
              · exact hpj hjq
            rw [pins_cons_anchor, pins_def, if_neg hpd,
              childCount_eq_zero_of_closure_except hp0 hpj hcl hpm]
            simp)
        obtain ⟨g1, g2, g3, g4, g5, g6⟩ := hrec
        exact ⟨g1, g2, g3,
          fun x hx => g4 x (hmono1 x hx),
          g4 j (by simp only [keysOf_cons]; exact List.mem_cons_self _ _), g6⟩
    · -- pre-existing anchor: bump its refcount
      split at h
      · have hmap : st'.anchor_map =
            mapKV j (fun a => { a with nref := a.nref + 1 }) st.anchor_map := by
          cases h
          rfl
        have hjk : j ∈ keysOf st.anchor_map := mem_keysOf_of_lookupKV hl
        have hkeys : keysOf (mapKV j
            (fun a => { a with nref := a.nref + 1 }) st.anchor_map) =
            keysOf st.anchor_map := keysOf_mapKV _ _ _
        refine ⟨?_, ?_, ?_, ?_, ?_, ?_⟩ <;> rw [hmap]
        · rw [hkeys]; exact hnd
        · intro e he
          obtain ⟨e', he', heq⟩ := mem_mapKV he
          by_cases hej : e'.1 = j
          · rw [if_pos hej] at heq
            subst heq
            exact ⟨(hiz e' he').1, (hiz e' he').2⟩
          · rw [if_neg hej] at heq
            rw [heq]
            exact hiz e' he'
        · intro e he hdn
          obtain ⟨e', he', heq⟩ := mem_mapKV he
          have hdir : e.2.dirino = e'.2.dirino := by
            by_cases hej : e'.1 = j
            · rw [if_pos hej] at heq; subst heq; rfl
            · rw [if_neg hej] at heq; subst heq; rfl
          rw [hkeys, hdir]
          rcases hcl e' he' (hdir ▸ hdn) with hmem | hjq
          · exact hmem
          · exact hjq ▸ hjk
        · intro x hx
          rw [hkeys]; exact hx
        · rw [hkeys]; exact hjk
        · intro e he
          obtain ⟨e', he', heq⟩ := mem_mapKV he
          have hpins : pins d (mapKV j
              (fun a => { a with nref := a.nref + 1 }) st.anchor_map) =
              pins d st.anchor_map :=
            funext fun x => pins_mapKV_preserve
              (f := fun a => { a with nref := a.nref + 1 }) (fun _ => rfl) d j
              st.anchor_map x
          by_cases hej : e'.1 = j
          · rw [if_pos hej] at heq
            subst heq
            have hm := hmain e' he'
            rw [if_pos hej] at hm
            simp only []
            rw [hpins]
            omega
          · rw [if_neg hej] at heq
            have hm := hmain e' he'
            rw [if_neg hej] at hm
            rw [heq, hpins]
            omega
      · exact Option.noConfusion h

theorem put_ref_step (c : Cache) (fuel i : Nat) (st : OftState) :
    put_ref c (fuel + 1) i st =
      (if i ∈ st.tracked then
        match lookupKV st.anchor_map i with
        | none => none
        | some a =>
          if a.nref = 0 then none
          else if 1 < a.nref then
            some { st with anchor_map := mapKV i (fun a => { a with nref := a.nref - 1 }) st.anchor_map }
          else
            let pin := c.parent i
            let ok : Bool :=
              match pin with
              | some (p, nm) => a.dirino == p && a.d_name == nm
              | none => a.dirino == 0 && a.d_name == ""
            if ok then
              let stx : OftState :=
                { st with anchor_map := eraseKV i st.anchor_map,
                          tracked := st.tracked.erase i,
                          dirty_items := putDirty i st.dirty_items }
              match pin with
              | none => some stx
              | some (p, _) => put_ref c fuel p stx
            else none
      else none) := rfl

theorem put_ref_inv (c : Cache) :
    ∀ (fuel j : Nat) (st st' : OftState) (d : List Nat),
      put_ref c fuel j st = some st' →
      (keysOf st.anchor_map).Nodup →
      (∀ e ∈ st.anchor_map, e.2.ino = e.1 ∧ e.1 ≠ 0) →
      (∀ e ∈ st.anchor_map, e.2.dirino ≠ 0 →
        e.2.dirino ∈ keysOf st.anchor_map) →
      (∀ x ∈ d, x ∈ keysOf st.anchor_map) →
      (∀ e ∈ st.anchor_map,
        e.2.nref = pins d st.anchor_map e.1 + (if e.1 = j then 1 else 0)) →
      ((keysOf st'.anchor_map).Nodup ∧
       (∀ e ∈ st'.anchor_map, e.2.ino = e.1 ∧ e.1 ≠ 0) ∧
       (∀ e ∈ st'.anchor_map, e.2.dirino ≠ 0 →
         e.2.dirino ∈ keysOf st'.anchor_map) ∧
       (∀ x ∈ d, x ∈ keysOf st'.anchor_map) ∧
       (∀ e ∈ st'.anchor_map, e.2.nref = pins d st'.anchor_map e.1)) := by
  intro fuel
  induction fuel with
  | zero => intro j st st' d h; exact Option.noConfusion h
  | succ fuel ih =>
    intro j st st' d h hnd hiz hcl hd hmain
    rw [put_ref_step] at h
    split at h
    case isFalse => exact Option.noConfusion h
    case isTrue htr =>
    rcases hl : lookupKV st.anchor_map j with _ | a <;> rw [hl] at h <;>
      simp only [] at h
    · exact Option.noConfusion h
    · have hjm : (j, a) ∈ st.anchor_map := lookupKV_mem hl
      have hsur : a.nref = pins d st.anchor_map j + 1 := by
        have := hmain (j, a) hjm
        simpa using this
      split at h
      · exact Option.noConfusion h
      case isFalse hnz =>
      split at h
      · -- nref > 1: decrement and stop
        case isTrue hgt =>
        have hmap : st'.anchor_map =
            mapKV j (fun a => { a with nref := a.nref - 1 }) st.anchor_map := by
          cases h
          rfl
        have hkeys : keysOf (mapKV j
            (fun a => { a with nref := a.nref - 1 }) st.anchor_map) =
            keysOf st.anchor_map := keysOf_mapKV _ _ _
        have hjk : j ∈ keysOf st.anchor_map := mem_keysOf_of_lookupKV hl
        refine ⟨?_, ?_, ?_, ?_, ?_⟩ <;> rw [hmap]
        · rw [hkeys]; exact hnd
        · intro e he
          obtain ⟨e', he', heq⟩ := mem_mapKV he
          by_cases hej : e'.1 = j
          · rw [if_pos hej] at heq
            subst heq
            exact ⟨(hiz e' he').1, (hiz e' he').2⟩
          · rw [if_neg hej] at heq
            rw [heq]
            exact hiz e' he'
        · intro e he hdn
          obtain ⟨e', he', heq⟩ := mem_mapKV he
          have hdir : e.2.dirino = e'.2.dirino := by
            by_cases hej : e'.1 = j
            · rw [if_pos hej] at heq; subst heq; rfl
            · rw [if_neg hej] at heq; subst heq; rfl
          rw [hkeys, hdir]
          exact hcl e' he' (hdir ▸ hdn)
        · intro x hx
          rw [hkeys]; exact hd x hx
        · intro e he
          obtain ⟨e', he', heq⟩ := mem_mapKV he
          have hpins : pins d (mapKV j
              (fun a => { a with nref := a.nref - 1 }) st.anchor_map) =
              pins d st.anchor_map :=
            funext fun x => pins_mapKV_preserve
              (f := fun a => { a with nref := a.nref - 1 }) (fun _ => rfl) d j
              st.anchor_map x
          by_cases hej : e'.1 = j
          · rw [if_pos hej] at heq
            subst heq
            have hea : e'.2 = a := by
              have hle := lookupKV_eq_of_mem_nodup hnd he'
              rw [hej, hl] at hle
              exact (Option.some.inj hle).symm
            have hm := hmain e' he'
            rw [if_pos hej] at hm
            simp only []
            rw [hpins, hej]
            rw [hea]
            omega
          · rw [if_neg hej] at heq
            have hm := hmain e' he'
            rw [if_neg hej] at hm
            rw [heq, hpins]
            omega
      · -- nref = 1: erase the anchor and release the parent
        case isFalse hle =>
        have h1 : a.nref = 1 := by omega
        have hpz : pins d st.anchor_map j = 0 := by omega
        obtain ⟨hjd, hcc⟩ := pins_eq_zero_parts hpz
        have hndE : (keysOf (eraseKV j st.anchor_map)).Nodup :=
          nodup_keysOf_eraseKV hnd
        have hjkE : j ∉ keysOf (eraseKV j st.anchor_map) :=
          (lookupKV_eq_none_iff _ _).mp (lookupKV_eraseKV_self hnd)
        have hsubE : ∀ e, e ∈ eraseKV j st.anchor_map →
            e ∈ st.anchor_map ∧ e.1 ≠ j := by
          intro e he
          refine ⟨mem_of_mem_eraseKV he, ?_⟩
          intro hh
          have hmem := mem_keysOf_of_mem he
          rw [hh] at hmem
          exact hjkE hmem
        have hizE : ∀ e ∈ eraseKV j st.anchor_map, e.2.ino = e.1 ∧ e.1 ≠ 0 :=
          fun e he => hiz e (hsubE e he).1
        have hclE : ∀ e ∈ eraseKV j st.anchor_map, e.2.dirino ≠ 0 →
            e.2.dirino ∈ keysOf (eraseKV j st.anchor_map) := by
          intro e he hdn
          refine mem_keysOf_eraseKV (hcl e (hsubE e he).1 hdn) ?_
          exact dirino_ne_of_childCount_zero hcc (hsubE e he).1
        have hdE : ∀ x ∈ d, x ∈ keysOf (eraseKV j st.anchor_map) := by
          intro x hx
          refine mem_keysOf_eraseKV (hd x hx) ?_
          intro hh
          exact hjd (hh ▸ hx)
        rcases hp : c.parent j with _ | pnm <;> rw [hp] at h <;> simp only [] at h
        · -- no parent: the anchor pointed at the root
          split at h
          case isFalse => exact Option.noConfusion h
          case isTrue hok =>
          have hdir0 : a.dirino = 0 := by
            have := (Bool.and_eq_true _ _).mp hok
            exact beq_iff_eq.mp this.1
          have hmapE : st'.anchor_map = eraseKV j st.anchor_map := by
            cases h
            rfl
          refine ⟨?_, ?_, ?_, ?_, ?_⟩ <;> rw [hmapE]
          · exact hndE
          · exact hizE
          · exact hclE
          · exact hdE
          · intro e he
            have hm := hmain e (hsubE e he).1
            rw [if_neg (hsubE e he).2] at hm
            have hpe := pins_eraseKV hl d e.1
            rw [hdir0] at hpe
            rw [if_neg (fun hh : (0 : Nat) = e.1 =>
              (hizE e he).2 hh.symm)] at hpe
            omega
        · -- parent exists: release it recursively
          rcases pnm with ⟨p, nm⟩
          split at h
          case isFalse => exact Option.noConfusion h
          case isTrue hok =>
          have hdirp : a.dirino = p := by
            have := (Bool.and_eq_true _ _).mp hok
            exact beq_iff_eq.mp this.1
          obtain ⟨hp0, -⟩ := c.wf j p nm hp
          have hrec := ih p _ st' d h hndE hizE hclE hdE (by
            intro e he
            show e.2.nref = pins d (eraseKV j st.anchor_map) e.1 +
              (if e.1 = p then 1 else 0)
            have hm := hmain e (hsubE e he).1
            rw [if_neg (hsubE e he).2] at hm
            have hpe := pins_eraseKV hl d e.1
            rw [hdirp] at hpe
            by_cases hep : e.1 = p
            · rw [if_pos hep.symm] at hpe
              rw [if_pos hep]
              omega
            · rw [if_neg (fun hh : p = e.1 => hep hh.symm)] at hpe
              rw [if_neg hep]
              omega)
          exact hrec

theorem WfSt_of_Reach : ∀ {st : OftState} {d : List Nat}, Reach st d → WfSt st d := by
  intro st d h
  induction h with
  | empty =>
    refine ⟨List.nodup_nil, List.nodup_nil, ?_, ?_, ?_, ?_⟩ <;>
      intro e he <;> simp [initState] at he
  | add c fuel i hR hi0 hid hadd ih =>
    rename_i st0 st' d0
    obtain ⟨hnd, hdnd, hiz, hcl, hdk, hmain⟩ := ih
    have hg : get_ref c fuel i st0 = some st' := by
      unfold add_inode at hadd
      split at hadd
      · rcases hlk : lookupKV st0.anchor_map i with _ | a <;> rw [hlk] at hadd <;>
          simp only [] at hadd
        · exact hadd
        · exact Option.noConfusion hadd
      · exact hadd
    have hres := get_ref_inv c fuel i st0 st' (i :: d0) hg hi0 hnd hiz
      (fun e he hdn => Or.inl (hcl e he hdn))
      (by
        intro x hx
        rcases List.mem_cons.1 hx with rfl | hx'
        · exact Or.inr rfl
        · exact Or.inl (hdk x hx'))
      (by
        intro e he
        rw [pins_cons_direct hid]
        have := hmain e he
        omega)
      (by
        intro hik
        rw [pins_cons_direct hid, pins_def]
        have hind : i ∉ d0 := hid
        have hidd : i ∉ d0 := fun hx => hik (hdk i hx)
        rw [if_neg hidd, childCount_eq_zero_of_closure hi0 hcl hik, if_pos rfl])
    obtain ⟨g1, g2, g3, g4, g5, g6⟩ := hres
    refine ⟨g1, List.nodup_cons.mpr ⟨hid, hdnd⟩, g2, g3, ?_, g6⟩
    intro x hx
    rcases List.mem_cons.1 hx with rfl | hx'
    · exact g5
    · exact g4 x (hdk x hx')
  | remove c fuel i hR hid hrem ih =>
    rename_i st0 st' d0
    obtain ⟨hnd, hdnd, hiz, hcl, hdk, hmain⟩ := ih
    have hp : put_ref c fuel i st0 = some st' := by
      unfold remove_inode at hrem
      split at hrem
      · rcases hlk : lookupKV st0.anchor_map i with _ | a <;> rw [hlk] at hrem <;>
          simp only [] at hrem
        · exact Option.noConfusion hrem
        · split at hrem
          · exact hrem
          · exact Option.noConfusion hrem
      · exact hrem
    have hres := put_ref_inv c fuel i st0 st' (d0.erase i) hp hnd hiz hcl
      (fun x hx => hdk x ((List.Nodup.mem_erase_iff hdnd).mp hx).2)
      (by
        intro e he
        have := hmain e he
        rw [pins_erase_direct hdnd hid st0.anchor_map e.1] at this
        omega)
    obtain ⟨g1, g2, g3, g4, g5⟩ := hres
    exact ⟨g1, hdnd.erase i, g2, g3, g4, g5⟩
  | link c fuel i hR hlink ih =>
    rename_i st0 st' d0
    obtain ⟨hnd, hdnd, hiz, hcl, hdk, hmain⟩ := ih
    unfold notify_link at hlink
    rcases hla : lookupKV st0.anchor_map i with _ | a <;> rw [hla] at hlink <;>
      simp only [] at hlink
    · exact Option.noConfusion hlink
    · split at hlink
      case isFalse => exact Option.noConfusion hlink
      case isTrue hgd =>
      obtain ⟨hnref, hdir0, hname0⟩ := hgd
      rcases hpp : c.parent i with _ | pnm <;> rw [hpp] at hlink <;>
        simp only [] at hlink
      · exact Option.noConfusion hlink
      · rcases pnm with ⟨p, nm⟩
        have him : (i, a) ∈ st0.anchor_map := lookupKV_mem hla
        have hi0 : i ≠ 0 := (hiz _ him).2
        obtain ⟨hp0, hdep⟩ := c.wf i p nm hpp
        have hpi : p ≠ i := fun hh => absurd (hh ▸ hdep) (lt_irrefl _)
        have hkeys : keysOf (mapKV i
            (fun a => { a with dirino := p, d_name := nm }) st0.anchor_map) =
            keysOf st0.anchor_map := keysOf_mapKV _ _ _
        have hpinsrel : ∀ x, x ≠ 0 →
            pins d0 (mapKV i (fun a => { a with dirino := p, d_name := nm })
              st0.anchor_map) x =
            pins d0 st0.anchor_map x + (if p = x then 1 else 0) := by
          intro x hx0
          have := pins_mapKV_dirino
            (f := fun a => { a with dirino := p, d_name := nm }) hnd hla d0 x
          rw [hdir0] at this
          rw [if_neg (fun hh : (0 : Nat) = x => hx0 hh.symm)] at this
          simp only [] at this
          omega
        have hres := get_ref_inv c fuel p _ st' d0 hlink hp0
          (by
            show (keysOf (mapKV i
              (fun a => { a with dirino := p, d_name := nm })
              st0.anchor_map)).Nodup
            rw [hkeys]; exact hnd)
          (by
            intro e he
            have heM : e ∈ mapKV i
                (fun a => { a with dirino := p, d_name := nm })
                st0.anchor_map := he
            obtain ⟨e', he', heq⟩ := mem_mapKV heM
            by_cases hej : e'.1 = i
            · rw [if_pos hej] at heq
              subst heq
              exact ⟨(hiz e' he').1, (hiz e' he').2⟩
            · rw [if_neg hej] at heq
              rw [heq]
              exact hiz e' he')
          (by
            intro e he hdn
            have heM : e ∈ mapKV i
                (fun a => { a with dirino := p, d_name := nm })
                st0.anchor_map := he
            show e.2.dirino ∈ keysOf (mapKV i
              (fun a => { a with dirino := p, d_name := nm })
              st0.anchor_map) ∨ e.2.dirino = p
            obtain ⟨e', he', heq⟩ := mem_mapKV heM
            by_cases hej : e'.1 = i
            · rw [if_pos hej] at heq
              subst heq
              exact Or.inr rfl
            · rw [if_neg hej] at heq
              rw [heq] at hdn ⊢
              exact Or.inl (hkeys ▸ hcl e' he' hdn))
          (by
            intro x hx
            show x ∈ keysOf (mapKV i
              (fun a => { a with dirino := p, d_name := nm })
              st0.anchor_map) ∨ x = p
            exact Or.inl (hkeys ▸ hdk x hx))
          (by
            intro e he
            have heM : e ∈ mapKV i
                (fun a => { a with dirino := p, d_name := nm })
                st0.anchor_map := he
            show e.2.nref + (if e.1 = p then 1 else 0) =
              pins d0 (mapKV i
                (fun a => { a with dirino := p, d_name := nm })
                st0.anchor_map) e.1
            obtain ⟨e', he', heq⟩ := mem_mapKV heM
            by_cases hej : e'.1 = i
            · rw [if_pos hej] at heq
              subst heq
              have hea : e'.2 = a := by
                have hle := lookupKV_eq_of_mem_nodup hnd he'
                rw [hej, hla] at hle
                exact (Option.some.inj hle).symm
              simp only []
              rw [hej, hpinsrel i hi0, if_neg hpi,
                if_neg (fun hh : i = p => hpi hh.symm), hea]
              have := hmain e' he'
              rw [hej, hea] at this
              omega
            · rw [if_neg hej] at heq
              rw [heq]
              have hm := hmain e' he'
              rw [hpinsrel e'.1 (hiz e' he').2]
              by_cases hep : e'.1 = p
              · rw [if_pos hep, if_pos hep.symm]
                omega
              · rw [if_neg hep, if_neg (fun hh : p = e'.1 => hep hh.symm)]
                omega)
          (by
            intro hpk
            have hpkM : p ∉ keysOf (mapKV i
                (fun a => { a with dirino := p, d_name := nm })
                st0.anchor_map) := hpk
            show pins d0 (mapKV i
              (fun a => { a with dirino := p, d_name := nm })
              st0.anchor_map) p = 1
            rw [hkeys] at hpkM
            have hpd : p ∉ d0 := fun hx => hpkM (hdk p hx)
            rw [hpinsrel p hp0, pins_def, if_neg hpd,
              childCount_eq_zero_of_closure hp0 hcl hpkM, if_pos rfl])
        obtain ⟨g1, g2, g3, g4, g5, g6⟩ := hres
        refine ⟨g1, hdnd, g2, g3, ?_, g6⟩
        intro x hx
        refine g4 x ?_
        show x ∈ keysOf (mapKV i
          (fun a => { a with dirino := p, d_name := nm }) st0.anchor_map)
        exact hkeys ▸ hdk x hx
  | unlink c fuel i hR hunlink ih =>
    rename_i st0 st' d0
    obtain ⟨hnd, hdnd, hiz, hcl, hdk, hmain⟩ := ih
    unfold notify_unlink at hunlink
    rcases hla : lookupKV st0.anchor_map i with _ | a <;> rw [hla] at hunlink <;>
      simp only [] at hunlink
    · exact Option.noConfusion hunlink
    · split at hunlink
      case isFalse => exact Option.noConfusion hunlink
      case isTrue hnref =>
      rcases hpp : c.parent i with _ | pnm <;> rw [hpp] at hunlink <;>
        simp only [] at hunlink
      · exact Option.noConfusion hunlink
      · rcases pnm with ⟨p, nm⟩
        split at hunlink
        case isFalse => exact Option.noConfusion hunlink
        case isTrue hgd =>
        obtain ⟨hdirp, hnamep⟩ := hgd
        have him : (i, a) ∈ st0.anchor_map := lookupKV_mem hla
        have hi0 : i ≠ 0 := (hiz _ him).2
        obtain ⟨hp0, hdep⟩ := c.wf i p nm hpp
        have hpi : p ≠ i := fun hh => absurd (hh ▸ hdep) (lt_irrefl _)
        have hkeys : keysOf (mapKV i
            (fun a => { a with dirino := 0, d_name := "" }) st0.anchor_map) =
            keysOf st0.anchor_map := keysOf_mapKV _ _ _
        have hpinsrel : ∀ x, x ≠ 0 →
            pins d0 (mapKV i (fun a => { a with dirino := 0, d_name := "" })
              st0.anchor_map) x + (if p = x then 1 else 0) =
            pins d0 st0.anchor_map x := by
          intro x hx0
          have := pins_mapKV_dirino
            (f := fun a => { a with dirino := 0, d_name := "" }) hnd hla d0 x
          rw [hdirp] at this
          simp only [] at this
          rw [if_neg (fun hh : (0 : Nat) = x => hx0 hh.symm)] at this
          omega
        have hres := put_ref_inv c fuel p _ st' d0 hunlink
          (by
            show (keysOf (mapKV i
              (fun a => { a with dirino := 0, d_name := "" })
              st0.anchor_map)).Nodup
            rw [hkeys]; exact hnd)
          (by
            intro e he
            have heM : e ∈ mapKV i
                (fun a => { a with dirino := 0, d_name := "" })
                st0.anchor_map := he
            obtain ⟨e', he', heq⟩ := mem_mapKV heM
            by_cases hej : e'.1 = i
            · rw [if_pos hej] at heq
              subst heq
              exact ⟨(hiz e' he').1, (hiz e' he').2⟩
            · rw [if_neg hej] at heq
              rw [heq]
              exact hiz e' he')
          (by
            intro e he hdn
            have heM : e ∈ mapKV i
                (fun a => { a with dirino := 0, d_name := "" })
                st0.anchor_map := he
            show e.2.dirino ∈ keysOf (mapKV i
              (fun a => { a with dirino := 0, d_name := "" })
              st0.anchor_map)
            obtain ⟨e', he', heq⟩ := mem_mapKV heM
            by_cases hej : e'.1 = i
            · rw [if_pos hej] at heq
              subst heq
              simp only [] at hdn
              exact absurd rfl hdn
            · rw [if_neg hej] at heq
              rw [heq] at hdn ⊢
              exact hkeys ▸ hcl e' he' hdn)
          (by
            intro x hx
            show x ∈ keysOf (mapKV i
              (fun a => { a with dirino := 0, d_name := "" }) st0.anchor_map)
            exact hkeys ▸ hdk x hx)
          (by
            intro e he
            have heM : e ∈ mapKV i
                (fun a => { a with dirino := 0, d_name := "" })
                st0.anchor_map := he
            show e.2.nref = pins d0 (mapKV i
              (fun a => { a with dirino := 0, d_name := "" })
              st0.anchor_map) e.1 + (if e.1 = p then 1 else 0)
            obtain ⟨e', he', heq⟩ := mem_mapKV heM
            by_cases hej : e'.1 = i
            · rw [if_pos hej] at heq
              subst heq
              simp only []
              rw [hej, if_neg (fun hh : i = p => hpi hh.symm)]
              have hpr := hpinsrel i hi0
              rw [if_neg hpi] at hpr
              have := hmain e' he'
              rw [hej] at this
              omega
            · rw [if_neg hej] at heq
              rw [heq]
              have hm := hmain e' he'
              have hpr := hpinsrel e'.1 (hiz e' he').2
              by_cases hep : e'.1 = p
              · rw [if_pos hep.symm] at hpr
                rw [if_pos hep]
                omega
              · rw [if_neg (fun hh : p = e'.1 => hep hh.symm)] at hpr
                rw [if_neg hep]
                omega)
        obtain ⟨g1, g2, g3, g4, g5⟩ := hres
        exact ⟨g1, hdnd, g2, g3, g4, g5⟩

/-- C5: in every state reachable from the empty table by `add_inode`,
`remove_inode`, `notify_link` and `notify_unlink` (respecting their
preconditions), every anchor `A` satisfies
`A.nref = (1 if A.ino is directly tracked else 0) + #{B in the map : B.dirino = A.ino}`. -/
theorem C5_refcount_invariant {st : OftState} {d : List Nat}
    (h : Reach st d) :
    ∀ e ∈ st.anchor_map,
      e.2.nref = (if e.2.ino ∈ d then 1 else 0) +
        childCount st.anchor_map e.2.ino := by
  have hw := WfSt_of_Reach h
  intro e he
  have hino := (hw.2.2.1 e he).1
  rw [hino]
  exact hw.2.2.2.2.2 e he

/-- C5 (witness): the invariant on the concrete reachable state after
`add_inode(0x10)` from the empty table under `cacheW` (two anchors:
the file `0x10` with `nref 1`, and its parent `0x1` pinned with `nref 1`
by the child). -/
theorem C5_witness :
    ((16, (⟨16, 1, "a", DT_REG, 1, -1⟩ : Anchor)) ∈ stAdd16.anchor_map) ∧
    (⟨16, 1, "a", DT_REG, 1, -1⟩ : Anchor).nref =
      (if (⟨16, 1, "a", DT_REG, 1, -1⟩ : Anchor).ino ∈ [16] then 1 else 0) +
        childCount stAdd16.anchor_map (⟨16, 1, "a", DT_REG, 1, -1⟩ : Anchor).ino :=
  ⟨by decide,
    C5_refcount_invariant
      (Reach.add cacheW 2 16 Reach.empty (by decide) (by decide) (by decide))
      (16, ⟨16, 1, "a", DT_REG, 1, -1⟩) (by decide)⟩

/-- C9 (witness): the characterization on the concrete loaded snapshot
`{0x10 → (dir 0x1, "a"), 0x1 → root}`: the walk returns `[(0x1, "a", 0)]`
and the hint becomes the parent's auth `7`. -/
theorem C9_witness :
    ((true = true) ↔ ∃ a, lookupKV loadedW 16 = some a ∧ a.dirino ≠ 0) ∧
    (∀ a, lookupKV loadedW 16 = some a → a.dirino ≠ 0 →
      [((1 : Nat), ("a", (0 : Nat)))] = specAncestorChain loadedW 5 a ∧
      (7 : Int) = (match lookupKV loadedW a.dirino with
                   | some q => q.auth
                   | none => (-1 : Int))) :=
  C9_get_ancestors_characterization loadedW 5 16 [] (-1) true [(1, "a", 0)] 7 rfl

/-! ## C8: `add_inode` then `remove_inode` round-trips the state

The acquire climb of a fresh chain pushes one anchor, one tracked flag and
one `DIRTY_NEW` entry per chain inode; the release climb pops them in the
same (bottom-up) order.  The proof characterizes the two climbs against each
other, with a frame lemma moving the bottom-most pop past the rest of the
release climb. -/

theorem chainK_step (c : Cache) (fuel i : Nat) :
    chainK c (fuel + 1) i =
      i :: (match c.parent i with
            | none => []
            | some (p, _) => chainK c fuel p) := rfl

theorem chainK_depth_le (c : Cache) :
    ∀ (fuel j k : Nat), k ∈ chainK c fuel j → c.depth k ≤ c.depth j := by
  intro fuel
  induction fuel with
  | zero => intro j k hk; simp [chainK] at hk
  | succ fuel ih =>
    intro j k hk
    rw [chainK_step] at hk
    rcases List.mem_cons.1 hk with rfl | hk'
    · exact le_refl _
    · rcases hp : c.parent j with _ | pnm
      · rw [hp] at hk'; simp at hk'
      · rcases pnm with ⟨p, nm⟩
        rw [hp] at hk'
        exact le_of_lt (lt_of_le_of_lt (ih p k hk') (c.wf j p nm hp).2)

theorem eraseKV_comm {κ α : Type} [DecidableEq κ] {j k : κ} (hkj : k ≠ j) :
    ∀ (m : List (κ × α)), eraseKV k (eraseKV j m) = eraseKV j (eraseKV k m) := by
  intro m
  induction m with
  | nil => rfl
  | cons e t ih =>
    by_cases hej : e.1 = j
    · have h1 : eraseKV j (e :: t) = t := by rw [eraseKV_cons, if_pos hej]
      have h2 : eraseKV k (e :: t) = e :: eraseKV k t := by
        rw [eraseKV_cons, if_neg (fun hh => hkj (hh.symm.trans hej))]
      rw [h1, h2, eraseKV_cons, if_pos hej]
    · by_cases hek : e.1 = k
      · have h1 : eraseKV j (e :: t) = e :: eraseKV j t := by
          rw [eraseKV_cons, if_neg hej]
        have h2 : eraseKV k (e :: t) = t := by rw [eraseKV_cons, if_pos hek]
        rw [h1, h2, eraseKV_cons, if_pos hek]
      · have h1 : eraseKV j (e :: t) = e :: eraseKV j t := by
          rw [eraseKV_cons, if_neg hej]
        have h2 : eraseKV k (e :: t) = e :: eraseKV k t := by
          rw [eraseKV_cons, if_neg hek]
        rw [h1, h2, eraseKV_cons, if_neg hek, eraseKV_cons, if_neg hej, ih]

theorem mapKV_eraseKV_comm {κ α : Type} [DecidableEq κ] {j k : κ}
    (hkj : k ≠ j) (f : α → α) :
    ∀ (m : List (κ × α)), mapKV k f (eraseKV j m) = eraseKV j (mapKV k f m) := by
  intro m
  induction m with
  | nil => rfl
  | cons e t ih =>
    by_cases hej : e.1 = j
    · have h1 : eraseKV j (e :: t) = t := by rw [eraseKV_cons, if_pos hej]
      have h2 : mapKV k f (e :: t) = e :: mapKV k f t := by
        rw [mapKV_cons, if_neg (fun hh => hkj (hh.symm.trans hej))]
      rw [h1, h2, eraseKV_cons, if_pos hej]
    · have h1 : eraseKV j (e :: t) = e :: eraseKV j t := by
        rw [eraseKV_cons, if_neg hej]
      rw [h1, mapKV_cons, mapKV_cons]
      by_cases hek : e.1 = k
      · rw [if_pos hek, eraseKV_cons,
          if_neg (show ¬((e.1, f e.2).1 = j) from hej), ih]
      · rw [if_neg hek, eraseKV_cons, if_neg hej, ih]

theorem putDirty_of_absent {D : List (Nat × Nat)} {j : Nat}
    (h : lookupKV D j = none) : putDirty j D = (j, 0) :: D := by
  unfold putDirty; rw [h]

theorem putDirty_of_present {D : List (Nat × Nat)} {j : Nat} {f : Nat}
    (h : lookupKV D j = some f) :
    putDirty j D = if f.land DIRTY_NEW ≠ 0 then eraseKV j D else D := by
  unfold putDirty; rw [h]

theorem lookupKV_putDirty_ne {D : List (Nat × Nat)} {j k : Nat} (hkj : k ≠ j) :
    lookupKV (putDirty j D) k = lookupKV D k := by
  rcases hj : lookupKV D j with _ | f
  · rw [putDirty_of_absent hj, lookupKV_cons,
      if_neg (show ¬((j, (0 : Nat)).1 = k) from fun hh => hkj hh.symm)]
  · rw [putDirty_of_present hj]
    split
    · exact lookupKV_eraseKV_ne hkj
    · rfl

theorem putDirty_comm {D : List (Nat × Nat)} {j k : Nat} (hkj : k ≠ j)
    (hk : lookupKV D k ≠ none) :
    putDirty k (putDirty j D) = putDirty j (putDirty k D) := by
  have hjk : ¬(j = k) := fun hh => hkj hh.symm
  rcases hfk : lookupKV D k with _ | f
  · exact absurd hfk hk
  · rcases hgj : lookupKV D j with _ | g
    · rw [putDirty_of_absent hgj, putDirty_of_present hfk]
      have hlk : lookupKV ((j, (0 : Nat)) :: D) k = some f := by
        rw [lookupKV_cons, if_neg (show ¬((j, (0 : Nat)).1 = k) from hjk), hfk]
      rw [putDirty_of_present hlk]
      by_cases hf1 : f.land DIRTY_NEW ≠ 0
      · rw [if_pos hf1, eraseKV_cons,
          if_neg (show ¬((j, (0 : Nat)).1 = k) from hjk), if_pos hf1,
          putDirty_of_absent (show lookupKV (eraseKV k D) j = none by
            rw [lookupKV_eraseKV_ne hjk, hgj])]
      · rw [if_neg hf1, if_neg hf1, putDirty_of_absent hgj]
    · rw [putDirty_of_present hgj]
      by_cases hg1 : g.land DIRTY_NEW ≠ 0
      · rw [if_pos hg1, putDirty_of_present hfk]
        have hlk : lookupKV (eraseKV j D) k = some f := by
          rw [lookupKV_eraseKV_ne hkj, hfk]
        rw [putDirty_of_present hlk]
        by_cases hf1 : f.land DIRTY_NEW ≠ 0
        · rw [if_pos hf1, if_pos hf1,
            putDirty_of_present (show lookupKV (eraseKV k D) j = some g by
              rw [lookupKV_eraseKV_ne hjk, hgj]),
            if_pos hg1, eraseKV_comm hkj]
        · rw [if_neg hf1, if_neg hf1, putDirty_of_present hgj, if_pos hg1]
      · rw [if_neg hg1, putDirty_of_present hfk]
        by_cases hf1 : f.land DIRTY_NEW ≠ 0
        · rw [if_pos hf1,
            putDirty_of_present (show lookupKV (eraseKV k D) j = some g by
              rw [lookupKV_eraseKV_ne hjk, hgj]),
            if_neg hg1]
        · rw [if_neg hf1, putDirty_of_present hgj, if_neg hg1]

theorem putDirty_emplace_cancel {D : List (Nat × Nat)} {j : Nat}
    (hdi : ∀ f, lookupKV D j = some f → f.land DIRTY_NEW = 0) :
    putDirty j (emplaceKV j DIRTY_NEW D) = D := by
  rcases hlj : lookupKV D j with _ | f
  · rw [emplaceKV_of_absent hlj,
      putDirty_of_present (show lookupKV ((j, DIRTY_NEW) :: D) j = some DIRTY_NEW by
        rw [lookupKV_cons, if_pos (show (j, DIRTY_NEW).1 = j from rfl)]),
      if_pos (by decide : DIRTY_NEW.land DIRTY_NEW ≠ 0),
      eraseKV_cons, if_pos (show (j, DIRTY_NEW).1 = j from rfl)]
  · rw [emplaceKV_of_present (by rw [hlj]; rfl), putDirty_of_present hlj,
      if_neg (by simp [hdi f hlj])]

theorem lookupKV_emplaceKV_self {κ α : Type} [DecidableEq κ] (k : κ) (v : α)
    (m : List (κ × α)) : lookupKV (emplaceKV k v m) k ≠ none := by
  unfold emplaceKV
  split
  · next hs =>
    intro hn
    rw [hn] at hs
    simp at hs
  · intro hn
    rw [lookupKV_cons, if_pos rfl] at hn
    exact Option.noConfusion hn

theorem chainK_ne_of_parent (c : Cache) (fuel : Nat) {i q : Nat} {nm : String}
    (hp : c.parent i = some (q, nm)) :
    ∀ x ∈ chainK c fuel q, x ≠ i := by
  intro x hx hxi
  have h1 := chainK_depth_le c fuel q x hx
  have h2 := (c.wf i q nm hp).2
  subst hxi
  omega

/-- Unwinding one step of `put_ref` in the decrement branch. -/
theorem put_ref_bump_unwind (c : Cache) (fuel i : Nat) (st : OftState) (a : Anchor)
    (hmem : i ∈ st.tracked) (hlk : lookupKV st.anchor_map i = some a)
    (hnref : 1 < a.nref) :
    put_ref c (fuel + 1) i st =
      some { st with anchor_map := mapKV i (fun a => { a with nref := a.nref - 1 }) st.anchor_map } := by
  rw [put_ref_step, if_pos hmem, hlk]
  simp only []
  rw [if_neg (show ¬ a.nref = 0 by omega), if_pos hnref]

/-- Unwinding one step of `put_ref` in the erase branch (refcount one and the
recorded parent link matches the cache). -/
theorem put_ref_erase_unwind (c : Cache) (fuel i : Nat) (st : OftState) (a : Anchor)
    (hmem : i ∈ st.tracked) (hlk : lookupKV st.anchor_map i = some a)
    (hnref : a.nref = 1)
    (hok : (match c.parent i with
            | some (p, nm) => a.dirino == p && a.d_name == nm
            | none => a.dirino == 0 && a.d_name == "") = true) :
    put_ref c (fuel + 1) i st =
      match c.parent i with
      | none => some (eraseFromState i st)
      | some (p, _) => put_ref c fuel p (eraseFromState i st) := by
  rw [put_ref_step, if_pos hmem, hlk]
  simp only []
  rw [if_neg (show ¬ a.nref = 0 by omega), if_neg (show ¬ 1 < a.nref by omega)]
  rcases hp : c.parent i with _ | pr
  · rw [hp] at hok
    simp only [] at hok ⊢
    rw [if_pos hok]
    rfl
  · rcases pr with ⟨p, nm⟩
    rw [hp] at hok
    simp only [] at hok ⊢
    rw [if_pos hok]
    rfl

/-- The erase branch of `put_ref` at distinct inodes commutes, provided the
second one has a dirty entry (so that `putDirty` does not insert). -/
theorem eraseFromState_comm {st : OftState} {j k : Nat} (hkj : k ≠ j)
    (hk : lookupKV st.dirty_items k ≠ none) :
    eraseFromState k (eraseFromState j st) = eraseFromState j (eraseFromState k st) := by
  show ({ st with
      anchor_map := eraseKV k (eraseKV j st.anchor_map),
      tracked := (st.tracked.erase j).erase k,
      dirty_items := putDirty k (putDirty j st.dirty_items) } : OftState) =
    { st with
      anchor_map := eraseKV j (eraseKV k st.anchor_map),
      tracked := (st.tracked.erase k).erase j,
      dirty_items := putDirty j (putDirty k st.dirty_items) }
  rw [eraseKV_comm hkj, List.erase_comm, putDirty_comm hkj hk]

/-- Frame lemma: a successful release climb is unaffected by erasing an inode
`j` that the climb never visits; the erase commutes to the final state. -/
theorem put_ref_frame (c : Cache) (j : Nat) :
    ∀ (fuel k : Nat) (st st' : OftState),
      put_ref c fuel k st = some st' →
      (∀ x ∈ chainK c fuel k, x ≠ j) →
      (∀ x ∈ chainK c fuel k, lookupKV st.dirty_items x ≠ none) →
      put_ref c fuel k (eraseFromState j st) = some (eraseFromState j st') := by
  intro fuel
  induction fuel with
  | zero => intro k st st' h; exact Option.noConfusion h
  | succ fuel ih =>
    intro k st st' h hne hdp
    have hkj : k ≠ j := hne k (by rw [chainK_step]; exact List.mem_cons_self _ _)
    rw [put_ref_step] at h
    by_cases hmem : k ∈ st.tracked
    case neg => rw [if_neg hmem] at h; exact Option.noConfusion h
    rw [if_pos hmem] at h
    rcases hlk : lookupKV st.anchor_map k with _ | a
    · rw [hlk] at h; exact Option.noConfusion h
    rw [hlk] at h
    simp only [] at h
    have hmem2 : k ∈ (eraseFromState j st).tracked :=
      (List.mem_erase_of_ne hkj).2 hmem
    have hlk2 : lookupKV (eraseFromState j st).anchor_map k = some a := by
      show lookupKV (eraseKV j st.anchor_map) k = some a
      rw [lookupKV_eraseKV_ne hkj, hlk]
    by_cases h0 : a.nref = 0
    case pos => rw [if_pos h0] at h; exact Option.noConfusion h
    rw [if_neg h0] at h
    by_cases h1 : 1 < a.nref
    · rw [if_pos h1] at h
      have h2 := Option.some.inj h
      rw [put_ref_bump_unwind c fuel k (eraseFromState j st) a hmem2 hlk2 h1]
      refine congrArg some ?_
      rw [← h2]
      show ({ st with
          anchor_map := mapKV k (fun a => { a with nref := a.nref - 1 }) (eraseKV j st.anchor_map),
          tracked := st.tracked.erase j,
          dirty_items := putDirty j st.dirty_items } : OftState) =
        { st with
          anchor_map := eraseKV j (mapKV k (fun a => { a with nref := a.nref - 1 }) st.anchor_map),
          tracked := st.tracked.erase j,
          dirty_items := putDirty j st.dirty_items }
      rw [mapKV_eraseKV_comm hkj]
    · rw [if_neg h1] at h
      have hdk : lookupKV st.dirty_items k ≠ none :=
        hdp k (by rw [chainK_step]; exact List.mem_cons_self _ _)
      rcases hp : c.parent k with _ | pr
      · rw [hp] at h
        simp only [] at h
        split at h
        next hok =>
          have h2 := Option.some.inj h
          have hu := put_ref_erase_unwind c fuel k (eraseFromState j st) a hmem2 hlk2
            (by omega) (by rw [hp]; exact hok)
          rw [hu, hp]
          simp only []
          rw [eraseFromState_comm hkj hdk]
          exact congrArg some (congrArg (eraseFromState j) h2)
        next => exact Option.noConfusion h
      · rcases pr with ⟨p, nm⟩
        rw [hp] at h
        simp only [] at h
        split at h
        next hok =>
          have hu := put_ref_erase_unwind c fuel k (eraseFromState j st) a hmem2 hlk2
            (by omega) (by rw [hp]; exact hok)
          rw [hu, hp]
          simp only []
          rw [eraseFromState_comm hkj hdk]
          refine ih p (eraseFromState k st) st' h ?_ ?_
          · intro x hx
            exact hne x (by rw [chainK_step, hp]; exact List.mem_cons_of_mem _ hx)
          · intro x hx
            have hxk : x ≠ k := by
              intro hxe
              have ha1 := chainK_depth_le c fuel p x hx
              have ha2 := (c.wf k p nm hp).2
              subst hxe
              omega
            show lookupKV (putDirty k st.dirty_items) x ≠ none
            rw [lookupKV_putDirty_ne hxk]
            exact hdp x (by rw [chainK_step, hp]; exact List.mem_cons_of_mem _ hx)
        next => exact Option.noConfusion h

/-- An acquire climb over a completely fresh ancestor chain creates dirty
entries for every chain inode, touches nothing off the chain, leaves the
acquired inode with `nref = 1`, and is exactly undone by `put_ref`. -/
theorem get_put_aux (c : Cache) :
    ∀ (fuel p : Nat) (st st1 : OftState),
      get_ref c fuel p st = some st1 →
      (∀ x ∈ chainK c fuel p, lookupKV st.anchor_map x = none ∧ x ∉ st.tracked) →
      (∀ x ∈ chainK c fuel p, ∀ f, lookupKV st.dirty_items x = some f →
        f.land DIRTY_NEW = 0) →
      ((∀ x ∈ chainK c fuel p, lookupKV st1.dirty_items x ≠ none) ∧
       (∀ x, (∀ y ∈ chainK c fuel p, y ≠ x) →
         lookupKV st1.anchor_map x = lookupKV st.anchor_map x ∧
         (x ∈ st1.tracked ↔ x ∈ st.tracked) ∧
         lookupKV st1.dirty_items x = lookupKV st.dirty_items x) ∧
       (∃ a, lookupKV st1.anchor_map p = some a ∧ a.nref = 1) ∧
       put_ref c fuel p st1 = some st) := by
  intro fuel
  induction fuel with
  | zero => intro p st st1 hg; exact Option.noConfusion hg
  | succ fuel ih =>
    intro p st st1 hg hfr hdn
    have hpc : p ∈ chainK c (fuel + 1) p := by
      rw [chainK_step]; exact List.mem_cons_self _ _
    rw [get_ref_step, (hfr p hpc).1] at hg
    simp only [] at hg
    rcases hp : c.parent p with _ | pr
    · rw [hp] at hg
      simp only [] at hg
      set anc : Anchor := ⟨p, 0, "", c.d_type p, 1, MDS_RANK_NONE⟩ with hanc
      have h1 := Option.some.inj hg
      subst h1
      have hch : chainK c (fuel + 1) p = [p] := by rw [chainK_step, hp]
      refine ⟨?_, ?_, ?_, ?_⟩
      · intro x hx
        rw [hch] at hx
        have hx2 := List.mem_singleton.1 hx
        subst hx2
        show lookupKV (emplaceKV x DIRTY_NEW st.dirty_items) x ≠ none
        exact lookupKV_emplaceKV_self _ _ _
      · intro x hyx
        have hpx : p ≠ x := hyx p hpc
        refine ⟨?_, ?_, ?_⟩
        · show lookupKV ((p, anc) :: st.anchor_map) x = lookupKV st.anchor_map x
          rw [lookupKV_cons, if_neg (show ¬ ((p, anc) : Nat × Anchor).1 = x from fun hh => hpx hh)]
        · show x ∈ p :: st.tracked ↔ x ∈ st.tracked
          constructor
          · intro hm
            rcases List.mem_cons.1 hm with hh | hh
            · exact absurd hh (fun h2 => hpx h2.symm)
            · exact hh
          · exact fun hm => List.mem_cons_of_mem _ hm
        · show lookupKV (emplaceKV p DIRTY_NEW st.dirty_items) x = lookupKV st.dirty_items x
          exact lookupKV_emplaceKV_ne (fun hh => hpx hh.symm)
      · refine ⟨anc, ?_, rfl⟩
        show lookupKV ((p, anc) :: st.anchor_map) p = some anc
        rw [lookupKV_cons, if_pos rfl]
      · have hmem1 : p ∈ (p :: st.tracked) := List.mem_cons_self _ _
        have hlk1 : lookupKV ((p, anc) :: st.anchor_map) p = some anc := by
          rw [lookupKV_cons, if_pos rfl]
        have hok1 : (match c.parent p with
            | some (px, nmx) => anc.dirino == px && anc.d_name == nmx
            | none => anc.dirino == 0 && anc.d_name == "") = true := by
          rw [hp]; rfl
        have hu := put_ref_erase_unwind c fuel p
          { st with anchor_map := (p, anc) :: st.anchor_map,
                    tracked := p :: st.tracked,
                    dirty_items := emplaceKV p DIRTY_NEW st.dirty_items }
          anc hmem1 hlk1 rfl hok1
        rw [hu, hp]
        simp only []
        refine congrArg some ?_
        show ({ st with
            anchor_map := eraseKV p ((p, anc) :: st.anchor_map),
            tracked := (p :: st.tracked).erase p,
            dirty_items := putDirty p (emplaceKV p DIRTY_NEW st.dirty_items) } : OftState) = st
        rw [show eraseKV p ((p, anc) :: st.anchor_map) = st.anchor_map from by
              rw [eraseKV_cons, if_pos rfl],
            List.erase_cons_head, putDirty_emplace_cancel (hdn p hpc)]
    · rcases pr with ⟨q, nm⟩
      rw [hp] at hg
      simp only [] at hg
      set anc : Anchor := ⟨p, q, nm, c.d_type p, 1, MDS_RANK_NONE⟩ with hanc
      have hch : chainK c (fuel + 1) p = p :: chainK c fuel q := by
        rw [chainK_step, hp]
      have hqi : ∀ x ∈ chainK c fuel q, x ≠ p := chainK_ne_of_parent c fuel hp
      have hfr2 : ∀ x ∈ chainK c fuel q,
          lookupKV ((p, anc) :: st.anchor_map) x = none ∧ x ∉ p :: st.tracked := by
        intro x hx
        have hxp : x ≠ p := hqi x hx
        have hfx := hfr x (by rw [hch]; exact List.mem_cons_of_mem _ hx)
        constructor
        · rw [lookupKV_cons, if_neg (show ¬ ((p, anc) : Nat × Anchor).1 = x from
            fun hh => hxp hh.symm)]
          exact hfx.1
        · intro hm
          rcases List.mem_cons.1 hm with hh | hh
          · exact hxp hh
          · exact hfx.2 hh
      have hdn2 : ∀ x ∈ chainK c fuel q, ∀ f,
          lookupKV (emplaceKV p DIRTY_NEW st.dirty_items) x = some f →
          f.land DIRTY_NEW = 0 := by
        intro x hx f hf
        have hxp : x ≠ p := hqi x hx
        have hx2 : lookupKV (emplaceKV p DIRTY_NEW st.dirty_items) x =
            lookupKV st.dirty_items x := lookupKV_emplaceKV_ne hxp
        refine hdn x (by rw [hch]; exact List.mem_cons_of_mem _ hx) f ?_
        rw [← hx2]
        exact hf
      obtain ⟨ih1, ih2, ih3, ih4⟩ := ih q _ st1 hg hfr2 hdn2
      refine ⟨?_, ?_, ?_, ?_⟩
      · intro x hx
        rw [hch] at hx
        rcases List.mem_cons.1 hx with rfl | hx2
        · obtain ⟨-, -, hdpd⟩ := ih2 x hqi
          rw [hdpd]
          show lookupKV (emplaceKV x DIRTY_NEW st.dirty_items) x ≠ none
          exact lookupKV_emplaceKV_self _ _ _
        · exact ih1 x hx2
      · intro x hyx
        have hpx : p ≠ x := by
          refine hyx p ?_
          rw [hch]; exact List.mem_cons_self _ _
        have hyx2 : ∀ y ∈ chainK c fuel q, y ≠ x := by
          intro y hy
          exact hyx y (by rw [hch]; exact List.mem_cons_of_mem _ hy)
        obtain ⟨ha, ht, hd2⟩ := ih2 x hyx2
        refine ⟨?_, ?_, ?_⟩
        · rw [ha]
          show lookupKV ((p, anc) :: st.anchor_map) x = lookupKV st.anchor_map x
          rw [lookupKV_cons, if_neg (show ¬ ((p, anc) : Nat × Anchor).1 = x from
            fun hh => hpx hh)]
        · refine ht.trans ?_
          show x ∈ p :: st.tracked ↔ x ∈ st.tracked
          constructor
          · intro hm
            rcases List.mem_cons.1 hm with hh | hh
            · exact absurd hh (fun h2 => hpx h2.symm)
            · exact hh
          · exact fun hm => List.mem_cons_of_mem _ hm
        · refine hd2.trans ?_
          show lookupKV (emplaceKV p DIRTY_NEW st.dirty_items) x =
            lookupKV st.dirty_items x
          exact lookupKV_emplaceKV_ne (fun hh => hpx hh.symm)
      · obtain ⟨ha, -, -⟩ := ih2 p hqi
        refine ⟨anc, ?_, rfl⟩
        rw [ha]
        show lookupKV ((p, anc) :: st.anchor_map) p = some anc
        rw [lookupKV_cons, if_pos rfl]
      · have hmem1 : p ∈ st1.tracked :=
          (ih2 p hqi).2.1.mpr (List.mem_cons_self p st.tracked)
        have hlk1 : lookupKV st1.anchor_map p = some anc := by
          rw [(ih2 p hqi).1]
          show lookupKV ((p, anc) :: st.anchor_map) p = some anc
          rw [lookupKV_cons, if_pos rfl]
        have hok1 : (match c.parent p with
            | some (px, nmx) => anc.dirino == px && anc.d_name == nmx
            | none => anc.dirino == 0 && anc.d_name == "") = true := by
          rw [hp]
          show (anc.dirino == q && anc.d_name == nm) = true
          simp [hanc]
        have hu := put_ref_erase_unwind c fuel p st1 anc hmem1 hlk1 rfl hok1
        rw [hu, hp]
        simp only []
        have hfr3 := put_ref_frame c p fuel q st1 _ ih4 hqi ih1
        rw [hfr3]
        refine congrArg some ?_
        show ({ st with
            anchor_map := eraseKV p ((p, anc) :: st.anchor_map),
            tracked := (p :: st.tracked).erase p,
            dirty_items := putDirty p (emplaceKV p DIRTY_NEW st.dirty_items) } : OftState) = st
        rw [show eraseKV p ((p, anc) :: st.anchor_map) = st.anchor_map from by
              rw [eraseKV_cons, if_pos rfl],
            List.erase_cons_head, putDirty_emplace_cancel (hdn p hpc)]

/-- Counterexample to C8 as stated: inode `0x10` is not anchored in
`stDirtyStale` and its ancestor chain `[0x10, 0x1]` is completely fresh, yet
after `add_inode(0x10); remove_inode(0x10)` the dirty set still contains an
entry for `0x10` — the stale non-NEW entry `(0x10, 0)` that was already there
before the add (`put_ref` only cancels entries whose flag has `DIRTY_NEW`
set; `emplace` in `get_ref` does not overwrite the existing entry). -/
theorem C8_counterexample :
    (∀ x ∈ chainK cacheW 2 16,
        lookupKV stDirtyStale.anchor_map x = none ∧ x ∉ stDirtyStale.tracked) ∧
    (∃ st2, add_inode cacheW 2 16 stDirtyStale = some st2 ∧
      remove_inode cacheW 2 16 st2 = some stDirtyStale ∧
      lookupKV stDirtyStale.dirty_items 16 ≠ none) := by
  refine ⟨by decide, ⟨_, rfl, rfl, by decide⟩⟩

/-- C8 (amended): for an inode `i` whose whole ancestor chain is fresh
(no anchor and not tracked) and whose chain carries no `DIRTY_NEW` dirty
entries, `add_inode(i)` followed by `remove_inode(i)` restores the entire
OpenFileTable state exactly: the anchor map, the tracked set and the dirty
set all return to their pre-add values.  In particular the `DIRTY_NEW`
entries created by the acquire are cancelled by the release; a dirty entry
for `i` that existed before the add survives unchanged (so "leaves no dirty
entry for I" holds only for inodes with no pre-existing dirty entry). -/
theorem C8_add_remove_restores (c : Cache) (fuel i : Nat) (st st1 : OftState)
    (hfresh : ∀ x ∈ chainK c fuel i,
      lookupKV st.anchor_map x = none ∧ x ∉ st.tracked)
    (hdirty : ∀ x ∈ chainK c fuel i, ∀ f,
      lookupKV st.dirty_items x = some f → f.land DIRTY_NEW = 0)
    (hadd : add_inode c fuel i st = some st1) :
    remove_inode c fuel i st1 = some st := by
  rcases fuel with _ | fuel
  · exfalso
    unfold add_inode at hadd
    by_cases hd : ¬ c.isDir i
    · rw [if_pos hd] at hadd
      rcases hl : lookupKV st.anchor_map i with _ | a <;> rw [hl] at hadd <;>
        simp only [] at hadd
      · exact Option.noConfusion hadd
      · exact Option.noConfusion hadd
    · rw [if_neg hd] at hadd
      exact Option.noConfusion hadd
  · have hg : get_ref c (fuel + 1) i st = some st1 := by
      unfold add_inode at hadd
      by_cases hd : ¬ c.isDir i
      · rw [if_pos hd,
          (hfresh i (by rw [chainK_step]; exact List.mem_cons_self _ _)).1] at hadd
        exact hadd
      · rw [if_neg hd] at hadd
        exact hadd
    obtain ⟨h1, h2, ⟨a, hlka, hnref⟩, hput⟩ :=
      get_put_aux c (fuel + 1) i st st1 hg hfresh hdirty
    unfold remove_inode
    by_cases hd : ¬ c.isDir i
    · rw [if_pos hd, hlka]
      simp only []
      rw [if_pos hnref]
      exact hput
    · rw [if_neg hd]
      exact hput

/-- Witness for C8 at a concrete input: adding and removing file inode `0x10`
(parent directory `0x1`, both fresh) on a state whose dirty set already holds
the stale entry `(0x10, 0)` restores that state exactly. -/
theorem C8_witness :
    (∀ x ∈ chainK cacheW 2 16,
        lookupKV stDirtyStale.anchor_map x = none ∧ x ∉ stDirtyStale.tracked) ∧
    (∀ x ∈ chainK cacheW 2 16, ∀ f,
        lookupKV stDirtyStale.dirty_items x = some f → f.land DIRTY_NEW = 0) ∧
    (∃ st1, add_inode cacheW 2 16 stDirtyStale = some st1 ∧
      remove_inode cacheW 2 16 st1 = some stDirtyStale) :=
  ⟨by decide, by decide,
    ⟨_, rfl, C8_add_remove_restores cacheW 2 16 stDirtyStale _
      (by decide) (by decide) rfl⟩⟩

theorem hexRev_step (fuel n : Nat) :
    hexRev (fuel + 1) n = if n = 0 then [] else n % 16 :: hexRev fuel (n / 16) := rfl

theorem hexCharVal_hexDigitChar : ∀ d < 16, hexCharVal (hexDigitChar d) = d := by decide

theorem hexRev_foldr : ∀ (fuel n : Nat), n < 16 ^ fuel →
    ((hexRev fuel n).foldr (fun d a => a * 16 + d) 0 = n ∧
     ∀ d ∈ hexRev fuel n, d < 16) := by
  intro fuel
  induction fuel with
  | zero =>
    intro n hn
    have h0 : n = 0 := Nat.lt_one_iff.mp hn
    subst h0
    exact ⟨rfl, by intro d hd; simp [hexRev] at hd⟩
  | succ fuel ih =>
    intro n hn
    by_cases h0 : n = 0
    · subst h0
      rw [hexRev_step, if_pos rfl]
      exact ⟨rfl, by intro d hd; simp at hd⟩
    · rw [hexRev_step, if_neg h0]
      have hdiv : n / 16 < 16 ^ fuel := by
        have h16 : n < 16 * 16 ^ fuel := by
          rw [pow_succ] at hn
          omega
        omega
      obtain ⟨ihv, ihd⟩ := ih (n / 16) hdiv
      constructor
      · rw [List.foldr_cons, ihv]
        omega
      · intro d hd
        rcases List.mem_cons.1 hd with rfl | hd2
        · exact Nat.mod_lt _ (by norm_num)
        · exact ihd d hd2

theorem parse_digits : ∀ (ds : List Nat) (acc : Nat), (∀ d ∈ ds, d < 16) →
    List.foldl (fun a c => a * 16 + hexCharVal c) acc ((ds.map hexDigitChar).reverse) =
      acc * 16 ^ ds.length + ds.foldr (fun d a => a * 16 + d) 0 := by
  intro ds
  induction ds with
  | nil => intro acc h; simp
  | cons d rest ih =>
    intro acc h
    rw [List.map_cons, List.reverse_cons, List.foldl_append,
      ih acc (fun x hx => h x (List.mem_cons_of_mem _ hx))]
    simp only [List.foldl_cons, List.foldl_nil, List.foldr_cons, List.length_cons]
    rw [hexCharVal_hexDigitChar d (h d (List.mem_cons_self _ _)), pow_succ]
    ring

theorem parseHex_hexKey {n : Nat} (hn : n < 2 ^ 64) : parseHex (hexKey n) = n := by
  by_cases h0 : n = 0
  · subst h0; rfl
  · have hn16 : n < 16 ^ 64 :=
      lt_of_lt_of_le hn (Nat.pow_le_pow_left (by norm_num) 64)
    obtain ⟨hv, hdig⟩ := hexRev_foldr 64 n hn16
    unfold hexKey parseHex
    rw [if_neg h0]
    rw [show (String.mk (((hexRev 64 n).map hexDigitChar).reverse)).toList =
      ((hexRev 64 n).map hexDigitChar).reverse from rfl]
    rw [parse_digits (hexRev 64 n) 0 hdig, hv]
    simp

theorem opsUpdates_nil : opsUpdates [] = [] := rfl

theorem opsUpdates_append_singleton (l : List SubOp) (op : SubOp) :
    opsUpdates (l ++ [op]) = opsUpdates l ++ op.updates := by
  unfold opsUpdates
  rw [List.map_append, List.flatten_append]
  simp

theorem lookupKV_append_none {κ α : Type} [DecidableEq κ]
    {l₁ l₂ : List (κ × α)} {k : κ}
    (h₁ : lookupKV l₁ k = none) (h₂ : lookupKV l₂ k = none) :
    lookupKV (l₁ ++ l₂) k = none := by
  induction l₁ with
  | nil => exact h₂
  | cons e t ih =>
    rw [List.cons_append, lookupKV_cons]
    rw [lookupKV_cons] at h₁
    split at h₁
    · exact Option.noConfusion h₁
    · next he => rw [if_neg he]; exact ih h₁

theorem lookupKV_append_left {κ α : Type} [DecidableEq κ]
    {l₁ : List (κ × α)} {k : κ} {a : α} (l₂ : List (κ × α))
    (h₁ : lookupKV l₁ k = some a) :
    lookupKV (l₁ ++ l₂) k = some a := by
  induction l₁ with
  | nil => exact Option.noConfusion h₁
  | cons e t ih =>
    rw [List.cons_append, lookupKV_cons]
    rw [lookupKV_cons] at h₁
    split at h₁
    · next he => rw [if_pos he]; exact h₁
    · next he => rw [if_neg he]; exact ih h₁

theorem foldl_omapSet_fresh :
    ∀ (U : List (String × PAnchor)) (es : List (String × PAnchor)),
      (∀ kv ∈ U, lookupKV es kv.1 = none) → (keysOf U).Nodup →
      U.foldl (fun es kv => omapSet kv.1 kv.2 es) es = es ++ U := by
  intro U
  induction U with
  | nil => intro es h hn; simp
  | cons kv rest ih =>
    intro es h hn
    rw [List.foldl_cons]
    have hset : omapSet kv.1 kv.2 es = es ++ [kv] := by
      unfold omapSet
      rw [h kv (List.mem_cons_self _ _)]
      rfl
    rw [hset, ih (es ++ [kv]) ?fresh ?nodup]
    · rw [List.append_assoc]
      rfl
    case fresh =>
      intro x hx
      refine lookupKV_append_none (h x (List.mem_cons_of_mem _ hx)) ?_
      rw [lookupKV_cons]
      rw [if_neg ?ne]
      · rfl
      case ne =>
        rw [keysOf_cons] at hn
        intro he
        exact (List.nodup_cons.1 hn).1 (by
          rw [he]
          exact List.mem_map.2 ⟨x, hx, rfl⟩)
    case nodup => exact (List.nodup_cons.1 (keysOf_cons kv rest ▸ hn)).2

theorem applyOp_entries_pure (o : Omap) (op : SubOp)
    (hc : op.clear = false) (hr : op.removes = []) :
    (applyOp o op).entries =
      op.updates.foldl (fun es (kv : String × PAnchor) => omapSet kv.1 kv.2 es) o.entries := by
  unfold applyOp
  rw [hc, hr]
  simp only [Bool.false_eq_true, if_false, List.foldl_nil]
  rcases op.header with _ | h <;> rfl

theorem applyOp_header_some (o : Omap) (op : SubOp) {h : Nat}
    (hh : op.header = some h) : (applyOp o op).header = some h := by
  unfold applyOp
  rw [hh]

theorem applyOps_append_singleton (o : Omap) (l : List SubOp) (op : SubOp) :
    applyOps o (l ++ [op]) = applyOp (applyOps o l) op := by
  unfold applyOps
  rw [List.foldl_append]
  rfl

theorem applyOps_entries_pure :
    ∀ (l : List SubOp) (o : Omap), (∀ op ∈ l, op.clear = false ∧ op.removes = []) →
      (applyOps o l).entries =
        (opsUpdates l).foldl (fun es (kv : String × PAnchor) => omapSet kv.1 kv.2 es) o.entries := by
  intro l
  induction l with
  | nil => intro o h; rfl
  | cons op rest ih =>
    intro o h
    have hstep : applyOps o (op :: rest) = applyOps (applyOp o op) rest := rfl
    rw [hstep, ih (applyOp o op) (fun x hx => h x (List.mem_cons_of_mem _ hx))]
    rw [applyOp_entries_pure o op (h op (List.mem_cons_self _ _)).1
      (h op (List.mem_cons_self _ _)).2]
    rw [show opsUpdates (op :: rest) = op.updates ++ opsUpdates rest from by
      unfold opsUpdates; rw [List.map_cons, List.flatten_cons]]
    rw [List.foldl_append]

theorem commitDirtyLoop_false_step (A : List (Nat × Anchor)) (maxw seq ino f : Nat)
    (rest : List (Nat × Nat)) (a : CommitAcc) :
    commitDirtyLoop A false maxw seq ((ino, f) :: rest) a =
      commitDirtyLoop A false maxw seq rest (commitAddItem A maxw seq ino a) := rfl

theorem commitFlush_inv (seq : Nat) (last : Bool) (a : CommitAcc)
    (hr : a.to_remove = []) (hc : a.clear_on_commit = false)
    (hops : ∀ op ∈ a.ops, op.clear = false ∧ op.removes = []) :
    (opsUpdates (commitFlush seq last a).ops ++ (commitFlush seq last a).to_update =
      opsUpdates a.ops ++ a.to_update) ∧
    (commitFlush seq last a).to_remove = [] ∧
    (commitFlush seq last a).clear_on_commit = false ∧
    (∀ op ∈ (commitFlush seq last a).ops, op.clear = false ∧ op.removes = []) := by
  have hopseq : (commitFlush seq last a).ops = a.ops ++
      [{ clear := a.clear_on_commit,
         header := if last = true then some seq else if a.first = true then some 0 else none,
         updates := a.to_update, removes := a.to_remove }] := rfl
  refine ⟨?_, rfl, rfl, ?_⟩
  · rw [hopseq, opsUpdates_append_singleton]
    show (opsUpdates a.ops ++ a.to_update) ++ ([] : List (String × PAnchor)) =
      opsUpdates a.ops ++ a.to_update
    simp
  · intro op hop
    rw [hopseq] at hop
    rcases List.mem_append.1 hop with h | h
    · exact hops op h
    · rw [List.mem_singleton] at h
      subst h
      exact ⟨hc, hr⟩

theorem commitAddItem_inv (A : List (Nat × Anchor)) (maxw seq ino : Nat)
    (a : CommitAcc) (pa : Anchor) (hlk : lookupKV A ino = some pa)
    (hr : a.to_remove = []) (hc : a.clear_on_commit = false)
    (hops : ∀ op ∈ a.ops, op.clear = false ∧ op.removes = []) :
    (opsUpdates (commitAddItem A maxw seq ino a).ops ++
        (commitAddItem A maxw seq ino a).to_update =
      (opsUpdates a.ops ++ a.to_update) ++ [(hexKey ino, encodeAnchor pa)]) ∧
    (commitAddItem A maxw seq ino a).to_remove = [] ∧
    (commitAddItem A maxw seq ino a).clear_on_commit = false ∧
    (∀ op ∈ (commitAddItem A maxw seq ino a).ops, op.clear = false ∧ op.removes = []) := by
  unfold commitAddItem
  rw [hlk]
  simp only []
  split
  · have hflush := commitFlush_inv seq false
      { a with to_update := a.to_update ++ [(hexKey ino, encodeAnchor pa)],
               write_size := a.write_size + (hexKey ino).length + 4 + encLen pa + 4 }
      hr hc hops
    refine ⟨?_, hflush.2.1, hflush.2.2.1, hflush.2.2.2⟩
    rw [hflush.1]
    show opsUpdates a.ops ++ (a.to_update ++ [(hexKey ino, encodeAnchor pa)]) =
      (opsUpdates a.ops ++ a.to_update) ++ [(hexKey ino, encodeAnchor pa)]
    exact (List.append_assoc _ _ _).symm
  · refine ⟨?_, hr, hc, hops⟩
    show opsUpdates a.ops ++ (a.to_update ++ [(hexKey ino, encodeAnchor pa)]) =
      (opsUpdates a.ops ++ a.to_update) ++ [(hexKey ino, encodeAnchor pa)]
    exact (List.append_assoc _ _ _).symm

theorem commitDirtyLoop_false_inv (A : List (Nat × Anchor)) (maxw seq : Nat) :
    ∀ (D : List (Nat × Nat)) (a : CommitAcc),
      (∀ e ∈ D, (lookupKV A e.1).isSome) →
      a.to_remove = [] → a.clear_on_commit = false →
      (∀ op ∈ a.ops, op.clear = false ∧ op.removes = []) →
      (opsUpdates (commitDirtyLoop A false maxw seq D a).ops ++
          (commitDirtyLoop A false maxw seq D a).to_update =
        (opsUpdates a.ops ++ a.to_update) ++
          D.map (fun e => (hexKey e.1, encodeAnchor (liveVal A e.1)))) ∧
      (commitDirtyLoop A false maxw seq D a).to_remove = [] ∧
      (commitDirtyLoop A false maxw seq D a).clear_on_commit = false ∧
      (∀ op ∈ (commitDirtyLoop A false maxw seq D a).ops,
        op.clear = false ∧ op.removes = []) := by
  intro D
  induction D with
  | nil =>
    intro a hD hr hc hops
    refine ⟨?_, hr, hc, hops⟩
    show opsUpdates a.ops ++ a.to_update =
      (opsUpdates a.ops ++ a.to_update) ++
        List.map (fun (e : Nat × Nat) => (hexKey e.1, encodeAnchor (liveVal A e.1))) []
    simp
  | cons e rest ih =>
    intro a hD hr hc hops
    rcases e with ⟨ino, f⟩
    obtain ⟨pa, hpa⟩ :=
      Option.isSome_iff_exists.mp (hD (ino, f) (List.mem_cons_self _ _))
    rw [commitDirtyLoop_false_step]
    obtain ⟨hAu, hAr, hAc, hAops⟩ := commitAddItem_inv A maxw seq ino a pa hpa hr hc hops
    obtain ⟨hu, hr2, hc2, hops2⟩ := ih (commitAddItem A maxw seq ino a)
      (fun x hx => hD x (List.mem_cons_of_mem _ hx)) hAr hAc hAops
    refine ⟨?_, hr2, hc2, hops2⟩
    rw [hu, hAu]
    have hlive : liveVal A ino = pa := by unfold liveVal; rw [hpa]; rfl
    rw [List.map_cons]
    simp only [hlive]
    simp [List.append_assoc]

theorem commit_first_false (maxw seq : Nat) (st st' : OftState) (ops : List SubOp)
    (h1 : st.loaded_anchor_map = []) (h2 : st.clear_on_commit = false)
    (hsome : ∀ e ∈ st.dirty_items, (lookupKV st.anchor_map e.1).isSome)
    (h : commit maxw seq st = some (st', ops)) :
    (∀ op ∈ ops, op.clear = false ∧ op.removes = []) ∧
    opsUpdates ops = st.dirty_items.map
      (fun e => (hexKey e.1, encodeAnchor (liveVal st.anchor_map e.1))) ∧
    ∃ l', ops = l' ++
      [SubOp.mk false (some seq) (commitAcc maxw seq st).to_update
        (commitAcc maxw seq st).to_remove] := by
  have hacc : commitAcc maxw seq st =
      commitDirtyLoop st.anchor_map false maxw seq st.dirty_items (commitAcc0 st) := by
    unfold commitAcc
    rw [h1]
    simp
  have hops := commit_ops_eq maxw seq st st' ops h
  have hacc0r : (commitAcc0 st).to_remove = [] := rfl
  have hacc0c : (commitAcc0 st).clear_on_commit = false := h2
  have hacc0o : ∀ op ∈ (commitAcc0 st).ops, op.clear = false ∧ op.removes = [] := by
    intro op hop
    simp [commitAcc0] at hop
  obtain ⟨hu, hr2, hc2, hops2⟩ := commitDirtyLoop_false_inv st.anchor_map maxw seq
    st.dirty_items (commitAcc0 st) hsome hacc0r hacc0c hacc0o
  rw [← hacc] at hu hr2 hc2 hops2
  refine ⟨?_, ?_, ?_⟩
  · intro op hop
    rw [hops] at hop
    rcases List.mem_append.1 hop with hmem | hmem
    · exact hops2 op hmem
    · rw [List.mem_singleton] at hmem
      subst hmem
      exact ⟨hc2, hr2⟩
  · rw [hops, opsUpdates_append_singleton]
    show opsUpdates (commitAcc maxw seq st).ops ++ (commitAcc maxw seq st).to_update = _
    rw [hu]
    show (opsUpdates [] ++ ([] : List (String × PAnchor))) ++
        List.map (fun e => (hexKey e.1, encodeAnchor (liveVal st.anchor_map e.1)))
          st.dirty_items =
      List.map (fun e => (hexKey e.1, encodeAnchor (liveVal st.anchor_map e.1)))
        st.dirty_items
    rw [opsUpdates_nil]
    simp
  · refine ⟨(commitAcc maxw seq st).ops, ?_⟩
    rw [hops, hc2]

theorem keysOf_map_key {γ β : Type} (G : Nat × γ → β) :
    ∀ (L : List (Nat × γ)),
      keysOf (L.map (fun e => (e.1, G e))) = keysOf L := by
  intro L
  induction L with
  | nil => rfl
  | cons e t ih => rw [List.map_cons, keysOf_cons, keysOf_cons, ih]

theorem lookupKV_map_key {γ β : Type} (F : Nat → β) :
    ∀ (L : List (Nat × γ)) (k : Nat), k ∈ keysOf L →
      lookupKV (L.map (fun e => (e.1, F e.1))) k = some (F k) := by
  intro L
  induction L with
  | nil => intro k hk; simp [keysOf] at hk
  | cons e t ih =>
    intro k hk
    rw [List.map_cons, lookupKV_cons]
    by_cases he : e.1 = k
    · rw [if_pos (show ((e.1, F e.1) : Nat × β).1 = k from he)]
      show some (F e.1) = some (F k)
      rw [he]
    · rw [if_neg (show ¬ ((e.1, F e.1) : Nat × β).1 = k from he)]
      refine ih k ?_
      rw [keysOf_cons] at hk
      rcases List.mem_cons.1 hk with hh | hh
      · exact absurd hh.symm he
      · exact hh

theorem loadValues_fresh :
    ∀ (L : List (Nat × Anchor)) (m : List (Nat × Anchor)),
      (∀ e ∈ L, e.2.ino = e.1 ∧ e.1 < 2 ^ 64) →
      (∀ e ∈ L, lookupKV m e.1 = none) →
      (keysOf L).Nodup →
      loadValues (L.map (fun e => (hexKey e.1, some (encodeAnchor e.2)))) m =
        .ok (m ++ L.map (fun e => (e.1, decodeAnchor (encodeAnchor e.2)))) := by
  intro L
  induction L with
  | nil =>
    intro m h1 h2 h3
    show LoadVals.ok m = LoadVals.ok (m ++ [])
    rw [List.append_nil]
  | cons e rest ih =>
    intro m h1 h2 h3
    rcases e with ⟨k, a⟩
    obtain ⟨hino, hbound⟩ := h1 (k, a) (List.mem_cons_self _ _)
    have hino2 : a.ino = k := hino
    have hm : lookupKV m k = none := h2 (k, a) (List.mem_cons_self _ _)
    rw [List.map_cons, List.map_cons]
    have hstep : loadValues
        ((fun (e : Nat × Anchor) => (hexKey e.1, some (encodeAnchor e.2))) (k, a) ::
          rest.map (fun e => (hexKey e.1, some (encodeAnchor e.2)))) m =
        (if parseHex (hexKey k) = (encodeAnchor a).ino then
          loadValues (rest.map (fun e => (hexKey e.1, some (encodeAnchor e.2))))
            (if (lookupKV m (parseHex (hexKey k))).isSome
             then mapKV (parseHex (hexKey k)) (fun _ => decodeAnchor (encodeAnchor a)) m
             else m ++ [(parseHex (hexKey k), decodeAnchor (encodeAnchor a))])
        else .assertFail) := rfl
    rw [hstep, parseHex_hexKey hbound, hm]
    rw [if_neg (show ¬ ((none : Option Anchor).isSome = true) by simp)]
    rw [show (encodeAnchor a).ino = a.ino from rfl, hino2, if_pos rfl]
    rw [ih (m ++ [(k, decodeAnchor (encodeAnchor a))])
      (fun x hx => h1 x (List.mem_cons_of_mem _ hx))
      ?hfresh
      (by rw [keysOf_cons] at h3; exact (List.nodup_cons.1 h3).2)]
    · show LoadVals.ok ((m ++ [(k, decodeAnchor (encodeAnchor a))]) ++
          rest.map (fun e => (e.1, decodeAnchor (encodeAnchor e.2)))) =
        LoadVals.ok (m ++ ((k, decodeAnchor (encodeAnchor a)) ::
          rest.map (fun e => (e.1, decodeAnchor (encodeAnchor e.2)))))
      rw [List.append_assoc]
      rfl
    case hfresh =>
      intro x hx
      refine lookupKV_append_none (h2 x (List.mem_cons_of_mem _ hx)) ?_
      rw [lookupKV_cons,
        if_neg (show ¬ ((k, decodeAnchor (encodeAnchor a)) : Nat × Anchor).1 = x.1
          from ?_)]
      · rfl
      · intro hh
        rw [keysOf_cons] at h3
        exact (List.nodup_cons.1 h3).1 (by
          rw [show (k : Nat) = x.1 from hh]
          exact List.mem_map.2 ⟨x, hx, rfl⟩)

theorem eraseKeys_cons (k : Nat) (ks : List Nat) (m : List (Nat × Anchor)) :
    eraseKeys (k :: ks) m = eraseKeys ks (eraseKV k m) := rfl

theorem eraseKeys_eq_nil : ∀ (ks : List Nat) (m : List (Nat × Anchor)),
    (keysOf m).Nodup → (∀ x ∈ keysOf m, x ∈ ks) → eraseKeys ks m = [] := by
  intro ks
  induction ks with
  | nil =>
    intro m hn hsub
    cases m with
    | nil => rfl
    | cons e t =>
      exact absurd
        (hsub e.1 (by rw [keysOf_cons]; exact List.mem_cons_self _ _))
        (List.not_mem_nil _)
  | cons k rest ih =>
    intro m hn hsub
    rw [eraseKeys_cons]
    refine ih (eraseKV k m) (nodup_keysOf_eraseKV hn) ?_
    intro x hx
    have hxm : x ∈ keysOf m := keysOf_eraseKV_subset hx
    have hxk : x ≠ k := by
      intro hxe
      have hnone : lookupKV (eraseKV k m) k = none := lookupKV_eraseKV_self hn
      rw [lookupKV_eq_none_iff] at hnone
      exact hnone (hxe ▸ hx)
    rcases List.mem_cons.1 (hsub x hxm) with hh | hh
    · exact absurd hh hxk
    · exact hh

theorem commitDirtyLoop_skip (A : List (Nat × Anchor)) (maxw seq : Nat) :
    ∀ (D : List (Nat × Nat)) (a : CommitAcc),
      (∀ e ∈ D, ∃ qa pa, lookupKV a.loaded e.1 = some qa ∧
        lookupKV A e.1 = some pa ∧ anchorSame pa qa = true) →
      (keysOf D).Nodup →
      commitDirtyLoop A true maxw seq D a =
        { a with loaded := eraseKeys (keysOf D) a.loaded } := by
  intro D
  induction D with
  | nil => intro a h hn; rfl
  | cons e rest ih =>
    intro a h hn
    rcases e with ⟨ino, f⟩
    obtain ⟨qa, pa, hq, hp, hsame⟩ := h (ino, f) (List.mem_cons_self _ _)
    have h0 : commitDirtyLoop A true maxw seq ((ino, f) :: rest) a =
        (match lookupKV a.loaded ino with
         | some qa =>
           if (match lookupKV A ino with
               | some pa => anchorSame pa qa
               | none => false) = true then
             commitDirtyLoop A true maxw seq rest
               { a with loaded := eraseKV ino a.loaded }
           else commitDirtyLoop A true maxw seq rest
             (commitAddItem A maxw seq ino { a with loaded := eraseKV ino a.loaded })
         | none =>
           commitDirtyLoop A true maxw seq rest (commitAddItem A maxw seq ino a)) := rfl
    rw [h0, hq]
    simp only []
    rw [hp]
    simp only []
    rw [if_pos hsame]
    have hino_keys : ino ∉ keysOf rest := by
      rw [keysOf_cons] at hn
      exact (List.nodup_cons.1 hn).1
    rw [ih { a with loaded := eraseKV ino a.loaded } ?hyp ?nodup]
    · rfl
    case hyp =>
      intro x hx
      obtain ⟨qa2, pa2, hq2, hp2, hs2⟩ := h x (List.mem_cons_of_mem _ hx)
      refine ⟨qa2, pa2, ?_, hp2, hs2⟩
      show lookupKV (eraseKV ino a.loaded) x.1 = some qa2
      have hne : x.1 ≠ ino := by
        intro hxe
        exact hino_keys (hxe ▸ List.mem_map.2 ⟨x, hx, rfl⟩)
      rw [lookupKV_eraseKV_ne hne]
      exact hq2
    case nodup =>
      rw [keysOf_cons] at hn
      exact (List.nodup_cons.1 hn).2

theorem keys_trans {β γ : Type} {X : List (Nat × β)} {Y : List (Nat × γ)}
    (h : ∀ e ∈ X, e.1 ∈ keysOf Y) {k : Nat} (hk : k ∈ keysOf X) : k ∈ keysOf Y := by
  rcases List.mem_map.1 hk with ⟨e, he, rfl⟩
  exact h e he

theorem lookupKV_liveVal {A : List (Nat × Anchor)} {k : Nat}
    (hk : k ∈ keysOf A) : lookupKV A k = some (liveVal A k) := by
  obtain ⟨a, ha⟩ := Option.isSome_iff_exists.mp ((lookupKV_isSome_iff A k).mpr hk)
  rw [ha]
  unfold liveVal
  rw [ha]
  rfl

theorem commitAcc_first (maxw seq : Nat) (st : OftState)
    (h : st.loaded_anchor_map.isEmpty = false) :
    commitAcc maxw seq st =
      commitRemoveLoop maxw seq
        (commitDirtyLoop st.anchor_map true maxw seq st.dirty_items
          (commitAcc0 st)).loaded
        (commitDirtyLoop st.anchor_map true maxw seq st.dirty_items
          (commitAcc0 st)) := by
  unfold commitAcc
  simp only []
  rw [h]
  rw [if_pos (show ¬ ((false : Bool) = true) from by simp)]
  rw [show decide (¬ ((false : Bool) = true)) = true from rfl]

/-- C7: the commit / reboot-load / commit round trip.  Starting from a
non-first-commit state whose dirty set covers exactly the live anchors, the
first commit persists every live anchor; reloading the written object into a
fresh table repopulates the loaded map with exactly the committed anchors and
both commit counters; and a second commit over re-established live anchors
that are byte-equal to the persisted ones issues exactly one sub-operation
containing only the header write: zero omap key updates and zero key
removals, every dirty entry being skipped by the first-commit diff and
reconciled out of the loaded map, which drains to empty so that nothing is
scheduled for removal. -/
theorem C7_commit_load_commit_round_trip
    (maxw1 maxw2 seq1 seq2 : Nat) (st1 : OftState)
    (A2 : List (Nat × Anchor)) (D2 : List (Nat × Nat)) (T2 : List Nat)
    (h1 : st1.loaded_anchor_map = [])
    (h2 : st1.clear_on_commit = false)
    (h3 : st1.committing_log_seq ≤ seq1)
    (h4 : 0 < seq1) (h5 : seq1 ≤ seq2)
    (hDA : ∀ e ∈ st1.dirty_items, e.1 ∈ keysOf st1.anchor_map)
    (hAD : ∀ e ∈ st1.anchor_map, e.1 ∈ keysOf st1.dirty_items)
    (hndD : (keysOf st1.dirty_items).Nodup)
    (hino : ∀ e ∈ st1.anchor_map, e.2.ino = e.1)
    (hbound : ∀ e ∈ st1.anchor_map, e.1 < 2 ^ 64)
    (hA12 : ∀ e ∈ st1.anchor_map, e.1 ∈ keysOf A2)
    (hA21 : ∀ e2 ∈ A2, e2.1 ∈ keysOf st1.anchor_map)
    (hsame : ∀ e ∈ st1.anchor_map, ∀ e2 ∈ A2, e2.1 = e.1 →
      anchorSame e2.2 e.2 = true)
    (hD2A2 : ∀ e ∈ D2, e.1 ∈ keysOf A2)
    (hA2D2 : ∀ e2 ∈ A2, e2.1 ∈ keysOf D2)
    (hndD2 : (keysOf D2).Nodup) :
    ∃ st1p ops1 stL st2p,
      commit maxw1 seq1 st1 = some (st1p, ops1) ∧
      loadObject (applyOps emptyOmap ops1) initState = some (stL, 0, false) ∧
      commit maxw2 seq2
          { stL with anchor_map := A2, dirty_items := D2, tracked := T2 } =
        some (st2p, [SubOp.mk false (some seq2) [] []]) := by
  rcases seq1 with _ | s0
  · exact absurd h4 (lt_irrefl 0)
  -- the live anchor at a dirty key, as data
  have hbk : ∀ k ∈ keysOf st1.anchor_map, k < 2 ^ 64 := by
    intro k hk
    rcases List.mem_map.1 hk with ⟨e, he, rfl⟩
    exact hbound e he
  have hsome : ∀ e ∈ st1.dirty_items, (lookupKV st1.anchor_map e.1).isSome :=
    fun e he => (lookupKV_isSome_iff _ _).mpr (hDA e he)
  -- step 1: the first commit
  have hc1e : ∃ st1p ops1, commit maxw1 (s0 + 1) st1 = some (st1p, ops1) := by
    unfold commit
    rw [if_pos h3]
    exact ⟨_, _, rfl⟩
  obtain ⟨st1p, ops1, hc1⟩ := hc1e
  obtain ⟨hpure, hupd, l1, hl1⟩ :=
    commit_first_false maxw1 (s0 + 1) st1 st1p ops1 h1 h2 hsome hc1
  -- step 2: the object written by the first commit
  have hheader : (applyOps emptyOmap ops1).header = some (s0 + 1) := by
    rw [hl1, applyOps_append_singleton]
    exact applyOp_header_some _ _ rfl
  have hUkeys : keysOf (st1.dirty_items.map
      (fun e => (hexKey e.1, encodeAnchor (liveVal st1.anchor_map e.1)))) =
      (keysOf st1.dirty_items).map hexKey := by
    unfold keysOf
    rw [List.map_map, List.map_map]
    rfl
  have hUnodup : (keysOf (st1.dirty_items.map
      (fun e => (hexKey e.1, encodeAnchor (liveVal st1.anchor_map e.1))))).Nodup := by
    rw [hUkeys]
    refine List.Nodup.map_on ?_ hndD
    intro x hx y hy hxy
    have hxb : x < 2 ^ 64 := hbk x (keys_trans hDA hx)
    have hyb : y < 2 ^ 64 := hbk y (keys_trans hDA hy)
    rw [← parseHex_hexKey hxb, ← parseHex_hexKey hyb, hxy]
  have hentries : (applyOps emptyOmap ops1).entries =
      st1.dirty_items.map
        (fun e => (hexKey e.1, encodeAnchor (liveVal st1.anchor_map e.1))) := by
    rw [applyOps_entries_pure ops1 emptyOmap hpure, hupd]
    rw [show emptyOmap.entries = ([] : List (String × PAnchor)) from rfl]
    rw [foldl_omapSet_fresh _ [] (fun kv hkv => rfl) hUnodup]
    rfl
  -- step 3: reboot and load
  have hL1 : ∀ e ∈ st1.dirty_items.map
      (fun (e : Nat × Nat) => (e.1, liveVal st1.anchor_map e.1)),
      e.2.ino = e.1 ∧ e.1 < 2 ^ 64 := by
    intro e he
    rcases List.mem_map.1 he with ⟨d, hd, rfl⟩
    have hdk : d.1 ∈ keysOf st1.anchor_map := hDA d hd
    have hlv := lookupKV_liveVal hdk
    refine ⟨?_, hbk d.1 hdk⟩
    exact hino (d.1, liveVal st1.anchor_map d.1) (lookupKV_mem hlv)
  have hL3 : (keysOf (st1.dirty_items.map
      (fun (e : Nat × Nat) => (e.1, liveVal st1.anchor_map e.1)))).Nodup := by
    rw [keysOf_map_key]
    exact hndD
  have hlv2 := loadValues_fresh
    (st1.dirty_items.map (fun (e : Nat × Nat) => (e.1, liveVal st1.anchor_map e.1)))
    [] hL1 (fun e _ => rfl) hL3
  have hload : loadObject (applyOps emptyOmap ops1) initState =
      some ({ initState with
        committed_log_seq := s0 + 1, committing_log_seq := s0 + 1,
        loaded_anchor_map := st1.dirty_items.map
          (fun e => (e.1, decodeAnchor (encodeAnchor (liveVal st1.anchor_map e.1)))),
        load_done := true, waiting_for_load := 0 }, 0, false) := by
    have hstep0 : loadObject (applyOps emptyOmap ops1) initState =
        loadFinish 0 true false (applyOps emptyOmap ops1).header
          ((applyOps emptyOmap ops1).entries.map (fun e => (e.1, some e.2)))
          initState := rfl
    rw [hstep0, hheader, hentries]
    rw [show (st1.dirty_items.map
        (fun e => (hexKey e.1, encodeAnchor (liveVal st1.anchor_map e.1)))).map
          (fun e => (e.1, some e.2)) =
      (st1.dirty_items.map
        (fun (e : Nat × Nat) => (e.1, liveVal st1.anchor_map e.1))).map
          (fun e => (hexKey e.1, some (encodeAnchor e.2))) from by
        rw [List.map_map, List.map_map]
        rfl]
    have hfin : loadFinish 0 true false (some (s0 + 1))
        ((st1.dirty_items.map
          (fun (e : Nat × Nat) => (e.1, liveVal st1.anchor_map e.1))).map
            (fun e => (hexKey e.1, some (encodeAnchor e.2)))) initState =
        (match loadValues
            ((st1.dirty_items.map
              (fun (e : Nat × Nat) => (e.1, liveVal st1.anchor_map e.1))).map
                (fun e => (hexKey e.1, some (encodeAnchor e.2)))) [] with
         | .assertFail => none
         | .decodeErr => some (finishLoad
             { initState with
                 committed_log_seq := s0 + 1, committing_log_seq := s0 + 1,
                 clear_on_commit := true, loaded_anchor_map := [] })
         | .ok m => some (finishLoad
             { initState with
                 committed_log_seq := s0 + 1, committing_log_seq := s0 + 1,
                 loaded_anchor_map := m })) := rfl
    rw [hfin, hlv2, List.map_map]
    rfl
  have hcommit2e : ∃ st2p, commit maxw2 seq2
      { { initState with
          committed_log_seq := s0 + 1, committing_log_seq := s0 + 1,
          loaded_anchor_map := st1.dirty_items.map
            (fun (e : Nat × Nat) =>
              (e.1, decodeAnchor (encodeAnchor (liveVal st1.anchor_map e.1)))),
          load_done := true, waiting_for_load := 0 } with
            anchor_map := A2, dirty_items := D2, tracked := T2 } =
      some (st2p, [SubOp.mk false (some seq2) [] []]) := by
    set mL2 : List (Nat × Anchor) := st1.dirty_items.map
      (fun (e : Nat × Nat) =>
        (e.1, decodeAnchor (encodeAnchor (liveVal st1.anchor_map e.1)))) with hmL2
    set ST2 : OftState := { { initState with
        committed_log_seq := s0 + 1, committing_log_seq := s0 + 1,
        loaded_anchor_map := mL2,
        load_done := true, waiting_for_load := 0 } with
          anchor_map := A2, dirty_items := D2, tracked := T2 } with hST2
    by_cases hD1nil : st1.dirty_items = []
    · have hD2nil : D2 = [] := by
        cases hD2 : D2 with
        | nil => rfl
        | cons e t =>
          have h1m : e.1 ∈ keysOf A2 :=
            hD2A2 e (by rw [hD2]; exact List.mem_cons_self _ _)
          have h2m : e.1 ∈ keysOf st1.anchor_map := keys_trans hA21 h1m
          have h3m : e.1 ∈ keysOf st1.dirty_items := keys_trans hAD h2m
          rw [hD1nil] at h3m
          exact absurd h3m (List.not_mem_nil _)
      apply Exists.intro
      rw [hST2, hmL2, hD1nil, hD2nil]
      unfold commit
      split
      next => rfl
      next hcon => exact absurd h5 hcon
    · have hmLlookup : ∀ k ∈ keysOf st1.dirty_items,
          lookupKV mL2 k =
            some (decodeAnchor (encodeAnchor (liveVal st1.anchor_map k))) := by
        intro k hk
        rw [hmL2]
        exact lookupKV_map_key
          (fun k => decodeAnchor (encodeAnchor (liveVal st1.anchor_map k)))
          st1.dirty_items k hk
      have hhyp : ∀ e ∈ D2, ∃ qa pa,
          lookupKV (commitAcc0 ST2).loaded e.1 = some qa ∧
          lookupKV A2 e.1 = some pa ∧ anchorSame pa qa = true := by
        intro e he
        have hkA2 : e.1 ∈ keysOf A2 := hD2A2 e he
        have hkA1 : e.1 ∈ keysOf st1.anchor_map := keys_trans hA21 hkA2
        have hkD1 : e.1 ∈ keysOf st1.dirty_items := keys_trans hAD hkA1
        obtain ⟨pa, hpa⟩ :=
          Option.isSome_iff_exists.mp ((lookupKV_isSome_iff _ _).mpr hkA2)
        refine ⟨decodeAnchor (encodeAnchor (liveVal st1.anchor_map e.1)), pa,
          ?_, hpa, ?_⟩
        · show lookupKV mL2 e.1 =
            some (decodeAnchor (encodeAnchor (liveVal st1.anchor_map e.1)))
          exact hmLlookup e.1 hkD1
        · show anchorSame pa (liveVal st1.anchor_map e.1) = true
          exact hsame (e.1, liveVal st1.anchor_map e.1)
            (lookupKV_mem (lookupKV_liveVal hkA1)) (e.1, pa) (lookupKV_mem hpa) rfl
      have hEK : eraseKeys (keysOf D2) mL2 = [] := by
        rw [hmL2]
        refine eraseKeys_eq_nil (keysOf D2) _ ?_ ?_
        · rw [keysOf_map_key]
          exact hndD
        · intro x hx
          rw [keysOf_map_key] at hx
          exact keys_trans hA2D2 (keys_trans hA12 (keys_trans hDA hx))
      obtain ⟨d0, D1t, hD1c⟩ := List.exists_cons_of_ne_nil hD1nil
      have hisE : ST2.loaded_anchor_map.isEmpty = false := by
        show mL2.isEmpty = false
        rw [hmL2, hD1c, List.map_cons]
        rfl
      have haccF : commitAcc maxw2 seq2 ST2 =
          { commitAcc0 ST2 with loaded := ([] : List (Nat × Anchor)) } := by
        rw [commitAcc_first maxw2 seq2 ST2 hisE]
        rw [show ST2.anchor_map = A2 from rfl, show ST2.dirty_items = D2 from rfl]
        rw [commitDirtyLoop_skip A2 maxw2 seq2 D2 (commitAcc0 ST2) hhyp hndD2]
        rw [show (commitAcc0 ST2).loaded = mL2 from rfl]
        rw [hEK]
        rfl
      have hops2F : (commitFlush seq2 true (commitAcc maxw2 seq2 ST2)).ops =
          [SubOp.mk false (some seq2) [] []] := by
        rw [commitFlush_true_ops, haccF]
        rfl
      apply Exists.intro
      unfold commit
      split
      next =>
        simp only []
        rw [hops2F]
      next hcon => exact absurd h5 hcon
  obtain ⟨st2p, hcommit2⟩ := hcommit2e
  exact ⟨st1p, ops1, _, st2p, hc1, hload, hcommit2⟩

/-- Witness for C7 at a concrete input: committing the two-anchor first-boot
state at `log_seq = 5`, reloading the written object into a fresh table, and
committing again at `log_seq = 6` over byte-equal re-established anchors
issues exactly one sub-operation holding only the header write. -/
theorem C7_witness :
    (stCommitW.loaded_anchor_map = [] ∧ stCommitW.clear_on_commit = false ∧
      stCommitW.committing_log_seq ≤ 5 ∧ 0 < 5 ∧ 5 ≤ 6) ∧
    ∃ st1p ops1 stL st2p,
      commit 1024 5 stCommitW = some (st1p, ops1) ∧
      loadObject (applyOps emptyOmap ops1) initState = some (stL, 0, false) ∧
      commit 1024 6 { stL with anchor_map := stAdd16.anchor_map, dirty_items := [(1, DIRTY_NEW), (16, DIRTY_NEW)], tracked := [1, 16] } =
        some (st2p, [SubOp.mk false (some 6) [] []]) :=
  ⟨⟨rfl, rfl, by decide, by decide, by decide⟩,
    C7_commit_load_commit_round_trip 1024 1024 5 6 stCommitW stAdd16.anchor_map
      [(1, DIRTY_NEW), (16, DIRTY_NEW)] [1, 16] rfl rfl (by decide) (by decide)
      (by decide) (by decide) (by decide) (by decide) (by decide) (by decide)
      (by decide) (by decide) (by decide) (by decide) (by decide) (by decide)⟩

end OFT
